import Mathlib

/-!
Shallow embedding of the esp32-psram core (`src/esp32-psram/VectorHIMEM.h`):
the HIMEM window manager `HimemBlock` and the HIMEM-backed growable array
`VectorHIMEM<T>`.  Machine integers (`size_t` on the ESP32) are 32 bits wide;
wrap-around is made explicit (`% M32`) exactly where the C++ arithmetic can
overflow.  Hardware responses (allocation grants, map-range grants, map
grants) are passed in as explicit oracle parameters; the physical content of
the extended region is a byte function `mem : Nat → Nat`.
-/

namespace Esp32Psram

/-- Fixed HIMEM block size in bytes, `ESP_HIMEM_BLKSZ = 32 * 1024`. -/
def BLKSZ : Nat := 32 * 1024

/-- Modulus of 32-bit `size_t` arithmetic on the ESP32. -/
def M32 : Nat := 2 ^ 32

/-- Sentinel `SIZE_MAX` used by the source for `current_mapped_block`. -/
def SIZE_MAX : Nat := 2 ^ 32 - 1

/-- State of one `HimemBlock` window manager plus the physical extended
region it owns.  `handle`/`range`/`mappedPtr` model the nullness of the
corresponding C++ fields, `curBlock` is `current_mapped_block`, `mem` is the
byte content of the extended region, `live` counts live hardware window
mappings (incremented by `esp_himem_map`, decremented by `esp_himem_unmap`)
and `frees` counts calls to `esp_himem_free`. -/
structure Himem where
  handle : Bool
  range : Bool
  mappedPtr : Bool
  size : Nat
  curBlock : Nat
  mem : Nat → Nat
  live : Nat
  frees : Nat

/-- Default-constructed `HimemBlock`: no handle, no range, nothing mapped,
size 0, `current_mapped_block = SIZE_MAX`. -/
def Himem.init : Himem :=
  { handle := false, range := false, mappedPtr := false, size := 0,
    curBlock := SIZE_MAX, mem := fun _ => 0, live := 0, frees := 0 }

/-- Rounding of a requested byte count up to the next multiple of
`ESP_HIMEM_BLKSZ`, exactly as the source computes it in 32-bit `size_t`
arithmetic: `((block_size + BLKSZ - 1) / BLKSZ) * BLKSZ`.  The addition may
wrap; the division and final multiplication cannot. -/
def roundUpBlk (n : Nat) : Nat := (n + (BLKSZ - 1)) % M32 / BLKSZ * BLKSZ

/-- `HimemBlock::allocate`: fails if already allocated; otherwise sets
`size` to the rounded request and only then asks the hardware
(`esp_himem_alloc`, granted iff `allocOk`).  On hardware denial it returns
`false` with `size` already updated, mirroring the source. -/
def Himem.allocate (st : Himem) (blockSize : Nat) (allocOk : Bool) :
    Bool × Himem :=
  if st.handle then (false, st)
  else
    let st1 : Himem := { st with size := roundUpBlk blockSize }
    if allocOk then (true, { st1 with handle := true }) else (false, st1)

/-- `HimemBlock::unmap`: if both `mapped_ptr` and `range` are set, undo the
mapping (`esp_himem_unmap` + `esp_himem_free_map_range`) and reset the
mapping fields; otherwise do nothing. -/
def Himem.unmap (st : Himem) : Himem :=
  if st.mappedPtr && st.range then
    { st with mappedPtr := false, range := false, curBlock := SIZE_MAX,
              live := st.live - 1 }
  else st

/-- `HimemBlock::free`: if a handle is held, unmap first, then release the
handle (`esp_himem_free`) and reset `size` to 0; otherwise do nothing. -/
def Himem.free (st : Himem) : Himem :=
  if st.handle then
    let st1 := st.unmap
    { st1 with handle := false, size := 0, frees := st1.frees + 1 }
  else st

/-- `HimemBlock::get_size`. -/
def Himem.get_size (st : Himem) : Nat := st.size

/-- `HimemBlock::ensure_block_mapped`: no-op if `blockIndex` is the
currently mapped block; otherwise unmap any current window, request a map
range (`esp_himem_alloc_map_range`, granted iff `rangeOk`), then map the
block (`esp_himem_map`, granted iff `mapOk`).  On map failure the range is
released again. -/
def Himem.ensureBlockMapped (st : Himem) (blockIndex : Nat)
    (rangeOk mapOk : Bool) : Bool × Himem :=
  if blockIndex = st.curBlock then (true, st)
  else
    let st1 := if st.mappedPtr then st.unmap else st
    if rangeOk then
      let st2 : Himem := { st1 with range := true }
      if mapOk then
        (true, { st2 with mappedPtr := true, curBlock := blockIndex,
                          live := st2.live + 1 })
      else (false, { st2 with range := false })
    else (false, st1)

/-- Hardware oracle for mapping calls: for a block index it yields the
responses of `esp_himem_alloc_map_range` and `esp_himem_map`. -/
def orcT : Nat → Bool × Bool := fun _ => (true, true)

/-- Pointwise update of the region content performed by one `memcpy` into
the mapped window: bytes `[base, base + toWrite)` take the source bytes
starting at `srcBase`. -/
def writeMem (mem src : Nat → Nat) (base srcBase toWrite : Nat) :
    Nat → Nat :=
  fun a => if base ≤ a ∧ a < base + toWrite then src (srcBase + (a - base))
           else mem a

/-- Loop body of `HimemBlock::read`: block by block, ensure the block is
mapped, copy the overlapping portion out of the window, advance.  `fuel`
bounds the iteration count (each real iteration copies at least one byte, so
`fuel = remaining` suffices whenever `blockOffset < BLKSZ`). -/
def Himem.readAux (orc : Nat → Bool × Bool) :
    Nat → Himem → Nat → Nat → Nat → List Nat × Himem
  | 0, st, _, _, _ => ([], st)
  | fuel + 1, st, blockIndex, blockOffset, remaining =>
    if remaining = 0 then ([], st)
    else
      let r := st.ensureBlockMapped blockIndex (orc blockIndex).1
          (orc blockIndex).2
      if r.1 then
        let toRead := min (BLKSZ - blockOffset) remaining
        let chunk := (List.range toRead).map fun j =>
          r.2.mem (blockIndex * BLKSZ + blockOffset + j)
        let rest := Himem.readAux orc fuel r.2 (blockIndex + 1) 0
          (remaining - toRead)
        (chunk ++ rest.1, rest.2)
      else ([], r.2)

/-- `HimemBlock::read`: returns 0 bytes if unallocated or the offset is at
or past the region end; otherwise clamps the length to the region end and
reads block by block, stopping early if a remap fails.  The returned list
holds the bytes transferred; its length is the return value of the C++
function. -/
def Himem.read (st : Himem) (orc : Nat → Bool × Bool) (offset length : Nat) :
    List Nat × Himem :=
  if st.handle = false ∨ st.size ≤ offset then ([], st)
  else
    let len := min length (st.size - offset)
    if len = 0 then ([], st)
    else Himem.readAux orc len st (offset / BLKSZ) (offset % BLKSZ) len

/-- Loop body of `HimemBlock::write`, symmetric to `Himem.readAux`:
`written` is the running count of bytes copied so far (also the source
cursor). -/
def Himem.writeAux (orc : Nat → Bool × Bool) (src : Nat → Nat) :
    Nat → Himem → Nat → Nat → Nat → Nat → Nat × Himem
  | 0, st, _, _, written, _ => (written, st)
  | fuel + 1, st, blockIndex, blockOffset, written, remaining =>
    if remaining = 0 then (written, st)
    else
      let r := st.ensureBlockMapped blockIndex (orc blockIndex).1
          (orc blockIndex).2
      if r.1 then
        let toWrite := min (BLKSZ - blockOffset) remaining
        let st2 : Himem := { r.2 with
          mem := writeMem r.2.mem src (blockIndex * BLKSZ + blockOffset)
            written toWrite }
        Himem.writeAux orc src fuel st2 (blockIndex + 1) 0
          (written + toWrite) (remaining - toWrite)
      else (written, r.2)

/-- `HimemBlock::write`: symmetric to `Himem.read`; clamps to the region
end, remaps per block, copies into the window, stops early on remap
failure.  Returns the number of bytes written. -/
def Himem.write (st : Himem) (orc : Nat → Bool × Bool) (src : Nat → Nat)
    (offset length : Nat) : Nat × Himem :=
  if st.handle = false ∨ st.size ≤ offset then (0, st)
  else
    let len := min length (st.size - offset)
    if len = 0 then (0, st)
    else Himem.writeAux orc src len st (offset / BLKSZ) (offset % BLKSZ) 0 len

/-- States of a window manager reachable through its public interface,
starting from the default-constructed state. -/
inductive Reachable : Himem → Prop where
  | init : Reachable Himem.init
  | allocate (st : Himem) (n : Nat) (ok : Bool) :
      Reachable st → Reachable (st.allocate n ok).2
  | read (st : Himem) (orc : Nat → Bool × Bool) (o l : Nat) :
      Reachable st → Reachable (st.read orc o l).2
  | write (st : Himem) (orc : Nat → Bool × Bool) (s : Nat → Nat) (o l : Nat) :
      Reachable st → Reachable (st.write orc s o l).2
  | unmap (st : Himem) : Reachable st → Reachable st.unmap
  | free (st : Himem) : Reachable st → Reachable st.free

/-- Well-formedness of the mapping fields: `mapped_ptr`, `range` and
`current_mapped_block` are in sync and the number of live hardware mappings
matches (in particular it is at most one). -/
def Good (st : Himem) : Prop :=
  st.mappedPtr = st.range ∧ (st.mappedPtr = true ↔ st.curBlock ≠ SIZE_MAX) ∧
  st.live = (if st.mappedPtr then 1 else 0)

instance (st : Himem) : Decidable (Good st) := by
  unfold Good; infer_instance

/-- `VectorHIMEM::min_elements = 16`. -/
def minElements : Nat := 16

/-- State of a `VectorHIMEM<T>`: its owned window manager, `element_count`
and `element_capacity`.  The element size `sizeof(T)` is passed to each
operation as `esz`. -/
structure Vec where
  memory : Himem
  count : Nat
  cap : Nat

/-- Default-constructed `VectorHIMEM`. -/
def Vec.init : Vec := { memory := Himem.init, count := 0, cap := 0 }

/-- `VectorHIMEM::calculate_size_bytes`. -/
def calculateSizeBytes (esz count : Nat) : Nat := count * esz

/-- Content of the stack staging buffer after a read: the bytes actually
read overwrite the front of the buffer, the rest keeps its old content. -/
def staging (bs : List Nat) (temp : Nat → Nat) : Nat → Nat :=
  fun t => if h : t < bs.length then bs.get ⟨t, h⟩ else temp t

/-- Element copy loop of `VectorHIMEM::reallocate`: for `k` elements
starting at index `i`, read each element from the old block into the stack
buffer `temp` (bytes actually read overwrite the buffer front) and write the
buffer to the new block. -/
def Vec.copyLoop (esz : Nat) (orc : Nat → Bool × Bool) :
    Nat → Nat → Himem → Himem → (Nat → Nat) → Himem × Himem × (Nat → Nat)
  | 0, _, oldM, newM, temp => (oldM, newM, temp)
  | k + 1, i, oldM, newM, temp =>
    let r := oldM.read orc (i * esz) esz
    let temp1 := staging r.1 temp
    let w := newM.write orc temp1 (i * esz) esz
    Vec.copyLoop esz orc k (i + 1) r.2 w.2 temp1

/-- `VectorHIMEM::reallocate`: no-op if the requested capacity does not
exceed the current one; otherwise allocate a fresh block of
`max(new_capacity, min_elements) * sizeof(T)` bytes (granted iff `allocOk`),
copy the existing elements across one at a time, move-assign the new block
over the old one and derive the actual element capacity from the allocated
byte size.  On allocation failure the vector is left untouched. -/
def Vec.reallocate (esz : Nat) (v : Vec) (orc : Nat → Bool × Bool)
    (allocOk : Bool) (temp0 : Nat → Nat) (newCapacity : Nat) : Bool × Vec :=
  if newCapacity ≤ v.cap then (true, v)
  else
    let newCap := max newCapacity minElements
    let a := Himem.init.allocate (calculateSizeBytes esz newCap) allocOk
    if a.1 then
      let c := Vec.copyLoop esz orc v.count 0 v.memory a.2 temp0
      (true, { memory := c.2.1, count := v.count, cap := c.2.1.size / esz })
    else (false, v)

/-- `VectorHIMEM::push_back`: grow (doubling, floor `min_elements`) when
`element_count >= element_capacity`; abandon the push if growth fails;
otherwise write the value at byte offset `count * sizeof(T)` and increment
the count. -/
def Vec.push_back (esz : Nat) (v : Vec) (orc : Nat → Bool × Bool)
    (allocOk : Bool) (temp0 value : Nat → Nat) : Vec :=
  let g := if v.cap ≤ v.count then
      v.reallocate esz orc allocOk temp0
        (if v.cap = 0 then minElements else v.cap * 2)
    else (true, v)
  if g.1 then
    let w := g.2.memory.write orc value (g.2.count * esz) esz
    { g.2 with memory := w.2, count := g.2.count + 1 }
  else g.2

/-- `VectorHIMEM::pop_back`. -/
def Vec.pop_back (v : Vec) : Vec :=
  if 0 < v.count then { v with count := v.count - 1 } else v

/-- Downward shift loop of `VectorHIMEM::insert`: `k` iterations with `i`
descending from `element_count`; each reads element `i - 1` into the stack
buffer and writes the buffer at element `i`. -/
def Vec.insertShift (esz : Nat) (orc : Nat → Bool × Bool) :
    Nat → Nat → Himem → (Nat → Nat) → Himem × (Nat → Nat)
  | 0, _, m, temp => (m, temp)
  | k + 1, i, m, temp =>
    let r := m.read orc ((i - 1) * esz) esz
    let temp1 := staging r.1 temp
    let w := r.2.write orc temp1 (i * esz) esz
    Vec.insertShift esz orc k (i - 1) w.2 temp1

/-- `VectorHIMEM::insert`: no-op if `pos > element_count`; grow (doubling)
when at capacity, abandoning the insert if growth fails; shift elements at
indices `>= pos` up by one from the top down; write the value at `pos`;
increment the count. -/
def Vec.insert (esz : Nat) (v : Vec) (orc : Nat → Bool × Bool)
    (allocOk : Bool) (temp0 : Nat → Nat) (pos : Nat) (value : Nat → Nat) :
    Vec :=
  if v.count < pos then v
  else
    let g := if v.cap ≤ v.count then
        v.reallocate esz orc allocOk temp0
          (if v.cap = 0 then minElements else v.cap * 2)
      else (true, v)
    if g.1 then
      let s := Vec.insertShift esz orc (g.2.count - pos) g.2.count
        g.2.memory temp0
      let w := s.1.write orc value (pos * esz) esz
      { g.2 with memory := w.2, count := g.2.count + 1 }
    else g.2

/-- Upward shift loop of `VectorHIMEM::erase`: `k` iterations with `i`
ascending from `pos + 1`; each reads element `i` into the stack buffer and
writes the buffer at element `i - 1`. -/
def Vec.eraseShift (esz : Nat) (orc : Nat → Bool × Bool) :
    Nat → Nat → Himem → (Nat → Nat) → Himem × (Nat → Nat)
  | 0, _, m, temp => (m, temp)
  | k + 1, i, m, temp =>
    let r := m.read orc (i * esz) esz
    let temp1 := staging r.1 temp
    let w := r.2.write orc temp1 ((i - 1) * esz) esz
    Vec.eraseShift esz orc k (i + 1) w.2 temp1

/-- `VectorHIMEM::erase`: no-op if `pos >= element_count`; otherwise shift
every element at an index greater than `pos` down by one slot element by
element and decrement the count. -/
def Vec.erase (esz : Nat) (v : Vec) (orc : Nat → Bool × Bool)
    (temp0 : Nat → Nat) (pos : Nat) : Vec :=
  if v.count ≤ pos then v
  else
    let s := Vec.eraseShift esz orc (v.count - (pos + 1)) (pos + 1)
      v.memory temp0
    { v with memory := s.1, count := v.count - 1 }

/-- One-argument `VectorHIMEM::resize`: grow first if the new count exceeds
the capacity, abandoning the resize if growth fails; then set the count. -/
def Vec.resize (esz : Nat) (v : Vec) (orc : Nat → Bool × Bool)
    (allocOk : Bool) (temp0 : Nat → Nat) (n : Nat) : Vec :=
  if v.cap < n then
    let r := v.reallocate esz orc allocOk temp0 n
    if r.1 then { r.2 with count := n } else r.2
  else { v with count := n }

/-- `VectorHIMEM::reserve`: reallocate only when the requested capacity
exceeds the current one. -/
def Vec.reserve (esz : Nat) (v : Vec) (orc : Nat → Bool × Bool)
    (allocOk : Bool) (temp0 : Nat → Nat) (newCap : Nat) : Vec :=
  if v.cap < newCap then (v.reallocate esz orc allocOk temp0 newCap).2 else v

/-- `VectorHIMEM::back`: reads `sizeof(T)` bytes at byte offset
`(element_count - 1) * sizeof(T)` computed in 32-bit `size_t` arithmetic
(the subtraction wraps on an empty vector) into the static staging buffer
`temp` and returns the buffer.  The first component is the content of the
staging buffer after the call. -/
def Vec.back (esz : Nat) (v : Vec) (orc : Nat → Bool × Bool)
    (temp : Nat → Nat) : (Nat → Nat) × Himem :=
  let off := (v.count + M32 - 1) % M32 * esz % M32
  let r := v.memory.read orc off esz
  (staging r.1 temp, r.2)

/-- `VectorHIMEM::front`: reads `sizeof(T)` bytes at byte offset 0 into the
static staging buffer and returns the buffer. -/
def Vec.front (esz : Nat) (v : Vec) (orc : Nat → Bool × Bool)
    (temp : Nat → Nat) : (Nat → Nat) × Himem :=
  let r := v.memory.read orc 0 esz
  (staging r.1 temp, r.2)

/-- Repeated `push_back`: `n` pushes of `vals 0 .. vals (n-1)` (indexed by
the current count). -/
def Vec.pushN (esz : Nat) (orc : Nat → Bool × Bool) (allocOk : Bool)
    (temp0 : Nat → Nat) (vals : Nat → Nat → Nat) : Nat → Vec → Vec
  | 0, v => v
  | n + 1, v =>
    Vec.pushN esz orc allocOk temp0 vals n
      (v.push_back esz orc allocOk temp0 (vals v.count))

/-- Bytes of logical element `i` in a region. -/
def elemBytes (esz : Nat) (m : Himem) (i : Nat) : List Nat :=
  (List.range esz).map fun j => m.mem (i * esz + j)

/-- Growth target named by the specification:
`max(current_capacity == 0 ? MIN_ELEMENTS : current_capacity * 2,
requested)`. -/
def growthTarget (cap requested : Nat) : Nat :=
  max (if cap = 0 then minElements else cap * 2) requested

/-- Class invariant of a `VectorHIMEM` instance: the count never exceeds
the capacity, the capacity in elements fits the allocated byte size, and a
positive capacity implies an allocated block. -/
def VecOk (esz : Nat) (v : Vec) : Prop :=
  v.count ≤ v.cap ∧ v.cap * esz ≤ v.memory.size ∧
  (0 < v.cap → v.memory.handle = true)

instance (esz : Nat) (v : Vec) : Decidable (VecOk esz v) := by
  unfold VecOk; infer_instance

lemma unmap_of_not_mapped (st : Himem) (h : st.mappedPtr = false) :
    st.unmap = st := by
  unfold Himem.unmap
  simp [h]

lemma unmap_mappedPtr (st : Himem) : st.unmap.mappedPtr = false ∨
    st.unmap = st := by
  unfold Himem.unmap
  split
  · exact Or.inl rfl
  · exact Or.inr rfl

lemma unmap_frees (st : Himem) : st.unmap.frees = st.frees := by
  unfold Himem.unmap
  split <;> rfl

lemma unmap_mapped_of_sync (st : Himem) (h : st.mappedPtr = st.range) :
    st.unmap.mappedPtr = false := by
  unfold Himem.unmap
  split
  · rfl
  · rename_i hc
    rw [Bool.and_eq_true] at hc
    cases hm : st.mappedPtr
    · rfl
    · exact absurd ⟨hm, h ▸ hm⟩ hc

lemma free_of_handle (st : Himem) (h : st.handle = true) :
    st.free = { st.unmap with
                handle := false, size := 0,
                frees := st.unmap.frees + 1 } := by
  unfold Himem.free
  simp [h]

lemma free_of_not_handle (st : Himem) (h : st.handle = false) :
    st.free = st := by
  unfold Himem.free
  simp [h]

lemma free_handle (st : Himem) : st.free.handle = false := by
  by_cases h : st.handle
  · rw [free_of_handle st h]
  · rw [free_of_not_handle st (by simpa using h)]
    simpa using h

lemma ensure_fields (st : Himem) (b : Nat) (r m : Bool) :
    (st.ensureBlockMapped b r m).2.mem = st.mem ∧
    (st.ensureBlockMapped b r m).2.handle = st.handle ∧
    (st.ensureBlockMapped b r m).2.size = st.size ∧
    (st.ensureBlockMapped b r m).2.frees = st.frees := by
  unfold Himem.ensureBlockMapped Himem.unmap
  repeat' split
  all_goals exact ⟨rfl, rfl, rfl, rfl⟩

lemma ensure_fst_orcT (st : Himem) (b : Nat) :
    (st.ensureBlockMapped b true true).1 = true := by
  unfold Himem.ensureBlockMapped
  repeat' split
  all_goals simp_all

lemma readAux_fields (orc : Nat → Bool × Bool) (fuel : Nat) :
    ∀ (st : Himem) (bi bo r : Nat),
      (Himem.readAux orc fuel st bi bo r).2.mem = st.mem ∧
      (Himem.readAux orc fuel st bi bo r).2.handle = st.handle ∧
      (Himem.readAux orc fuel st bi bo r).2.size = st.size ∧
      (Himem.readAux orc fuel st bi bo r).2.frees = st.frees := by
  induction fuel with
  | zero => exact fun st bi bo r => ⟨rfl, rfl, rfl, rfl⟩
  | succ n ih =>
    intro st bi bo r
    show ((if r = 0 then (([] : List Nat), st) else _).2.mem = st.mem ∧ _)
    by_cases h0 : r = 0
    · simp only [h0, if_pos rfl]
      exact ⟨rfl, rfl, rfl, rfl⟩
    · simp only [if_neg h0, Himem.readAux]
      obtain ⟨he1, he2, he3, he4⟩ :=
        ensure_fields st bi (orc bi).1 (orc bi).2
      by_cases hs : (st.ensureBlockMapped bi (orc bi).1 (orc bi).2).1
      · simp only [hs, if_pos]
        obtain ⟨h1, h2, h3, h4⟩ :=
          ih (st.ensureBlockMapped bi (orc bi).1 (orc bi).2).2 (bi + 1) 0
            (r - min (BLKSZ - bo) r)
        exact ⟨h1.trans he1, h2.trans he2, h3.trans he3, h4.trans he4⟩
      · simp only [Bool.not_eq_true] at hs
        simp only [hs, Bool.false_eq_true, if_neg, if_false]
        exact ⟨he1, he2, he3, he4⟩

lemma writeAux_fields (orc : Nat → Bool × Bool) (src : Nat → Nat)
    (fuel : Nat) :
    ∀ (st : Himem) (bi bo w r : Nat),
      (Himem.writeAux orc src fuel st bi bo w r).2.handle = st.handle ∧
      (Himem.writeAux orc src fuel st bi bo w r).2.size = st.size ∧
      (Himem.writeAux orc src fuel st bi bo w r).2.frees = st.frees := by
  induction fuel with
  | zero => exact fun st bi bo w r => ⟨rfl, rfl, rfl⟩
  | succ n ih =>
    intro st bi bo w r
    show ((if r = 0 then (w, st) else _).2.handle = st.handle ∧ _)
    by_cases h0 : r = 0
    · simp only [h0, if_pos rfl]
      exact ⟨rfl, rfl, rfl⟩
    · simp only [if_neg h0, Himem.writeAux]
      obtain ⟨he1, he2, he3, he4⟩ :=
        ensure_fields st bi (orc bi).1 (orc bi).2
      by_cases hs : (st.ensureBlockMapped bi (orc bi).1 (orc bi).2).1
      · simp only [hs, if_pos]
        obtain ⟨h1, h2, h3⟩ :=
          ih _ (bi + 1) 0 (w + min (BLKSZ - bo) r) (r - min (BLKSZ - bo) r)
        exact ⟨h1.trans he2, h2.trans he3, h3.trans he4⟩
      · simp only [Bool.not_eq_true] at hs
        simp only [hs, Bool.false_eq_true, if_neg, if_false]
        exact ⟨he2, he3, he4⟩

lemma hBLKSZ : BLKSZ = 32768 := by norm_num [BLKSZ]

lemma map_range_split (f : Nat → Nat) (k r : Nat) (hk : k ≤ r) :
    (List.range r).map f =
      (List.range k).map f ++
        (List.range (r - k)).map fun t => f (k + t) := by
  conv_lhs => rw [show r = k + (r - k) by omega]
  rw [List.range_add, List.map_append, List.map_map]
  rfl

lemma readAux_val (fuel : Nat) :
    ∀ (st : Himem) (bi bo r : Nat), bo < BLKSZ → r ≤ fuel →
      (Himem.readAux orcT fuel st bi bo r).1 =
        (List.range r).map fun t => st.mem (bi * BLKSZ + bo + t) := by
  induction fuel with
  | zero =>
    intro st bi bo r hbo hr
    rw [Nat.le_zero.mp hr]
    rfl
  | succ n ih =>
    intro st bi bo r hbo hr
    by_cases h0 : r = 0
    · subst h0
      simp [Himem.readAux]
    · simp only [Himem.readAux, if_neg h0, orcT]
      rw [ensure_fst_orcT]
      simp only [if_pos]
      have hdist : (bi + 1) * BLKSZ = bi * BLKSZ + BLKSZ := by ring
      have hmem : (st.ensureBlockMapped bi true true).2.mem = st.mem :=
        (ensure_fields st bi true true).1
      have hkr : min (BLKSZ - bo) r ≤ r := Nat.min_le_right _ _
      have hk1 : 1 ≤ min (BLKSZ - bo) r := by
        have h1 : 1 ≤ BLKSZ - bo := by omega
        have h2 : 1 ≤ r := by omega
        omega
      rw [ih (st.ensureBlockMapped bi true true).2 (bi + 1) 0
        (r - min (BLKSZ - bo) r) (by omega) (by omega)]
      rw [hmem]
      by_cases hcase : BLKSZ - bo ≤ r
      · have hkval : min (BLKSZ - bo) r = BLKSZ - bo := Nat.min_eq_left hcase
        rw [hkval]
        rw [map_range_split (fun t => st.mem (bi * BLKSZ + bo + t))
          (BLKSZ - bo) r hcase]
        have hrest : ((List.range (r - (BLKSZ - bo))).map
              fun t => st.mem ((bi + 1) * BLKSZ + 0 + t)) =
            (List.range (r - (BLKSZ - bo))).map
              fun t => st.mem (bi * BLKSZ + bo + (BLKSZ - bo + t)) := by
          apply List.map_congr_left
          intro t _
          exact congrArg st.mem (by omega)
        rw [hrest]
      · have hkval : min (BLKSZ - bo) r = r := by omega
        rw [hkval]
        simp

lemma writeAux_val (src : Nat → Nat) (fuel : Nat) :
    ∀ (st : Himem) (bi bo w r : Nat), bo < BLKSZ → r ≤ fuel →
      (Himem.writeAux orcT src fuel st bi bo w r).1 = w + r ∧
      ∀ a, (Himem.writeAux orcT src fuel st bi bo w r).2.mem a =
        (if bi * BLKSZ + bo ≤ a ∧ a < bi * BLKSZ + bo + r
         then src (w + (a - (bi * BLKSZ + bo))) else st.mem a) := by
  induction fuel with
  | zero =>
    intro st bi bo w r hbo hr
    rw [Nat.le_zero.mp hr]
    refine ⟨rfl, fun a => ?_⟩
    rw [if_neg (by omega)]
    rfl
  | succ n ih =>
    intro st bi bo w r hbo hr
    by_cases h0 : r = 0
    · subst h0
      refine ⟨rfl, fun a => ?_⟩
      rw [if_neg (by omega)]
      rfl
    · simp only [Himem.writeAux, if_neg h0, orcT]
      rw [ensure_fst_orcT]
      simp only [if_pos]
      have hdist : (bi + 1) * BLKSZ = bi * BLKSZ + BLKSZ := by ring
      have hmem : (st.ensureBlockMapped bi true true).2.mem = st.mem :=
        (ensure_fields st bi true true).1
      have hkr : min (BLKSZ - bo) r ≤ r := Nat.min_le_right _ _
      have hk1 : 1 ≤ min (BLKSZ - bo) r := by
        have h1 : 1 ≤ BLKSZ - bo := by omega
        have h2 : 1 ≤ r := by omega
        omega
      obtain ⟨ihc, ihm⟩ := ih
        { (st.ensureBlockMapped bi true true).2 with
          mem := writeMem (st.ensureBlockMapped bi true true).2.mem src
            (bi * BLKSZ + bo) w (min (BLKSZ - bo) r) }
        (bi + 1) 0 (w + min (BLKSZ - bo) r) (r - min (BLKSZ - bo) r)
        (by omega) (by omega)
      refine ⟨by rw [ihc]; omega, fun a => ?_⟩
      rw [ihm a]
      show _ = if bi * BLKSZ + bo ≤ a ∧ a < bi * BLKSZ + bo + r
        then src (w + (a - (bi * BLKSZ + bo))) else st.mem a
      simp only [writeMem, hmem]
      by_cases hcase : BLKSZ - bo ≤ r
      · have hkval : min (BLKSZ - bo) r = BLKSZ - bo := Nat.min_eq_left hcase
        rw [hkval]
        by_cases hin2 : (bi + 1) * BLKSZ + 0 ≤ a ∧
            a < (bi + 1) * BLKSZ + 0 + (r - (BLKSZ - bo))
        · rw [if_pos hin2, if_pos (by omega)]
          congr 1
          omega
        · rw [if_neg hin2]
          by_cases hin1 : bi * BLKSZ + bo ≤ a ∧ a < bi * BLKSZ + bo +
              (BLKSZ - bo)
          · rw [if_pos hin1, if_pos (by omega)]
          · rw [if_neg hin1, if_neg (by omega)]
      · have hkval : min (BLKSZ - bo) r = r := by omega
        rw [hkval]
        by_cases hin2 : (bi + 1) * BLKSZ + 0 ≤ a ∧
            a < (bi + 1) * BLKSZ + 0 + (r - r)
        · omega
        · rw [if_neg hin2]

lemma read_fields (st : Himem) (orc : Nat → Bool × Bool)
    (offset length : Nat) :
    (st.read orc offset length).2.mem = st.mem ∧
    (st.read orc offset length).2.handle = st.handle ∧
    (st.read orc offset length).2.size = st.size ∧
    (st.read orc offset length).2.frees = st.frees := by
  unfold Himem.read
  by_cases hg : st.handle = false ∨ st.size ≤ offset
  · rw [if_pos hg]
    exact ⟨rfl, rfl, rfl, rfl⟩
  · rw [if_neg hg]
    by_cases h0 : min length (st.size - offset) = 0
    · rw [if_pos h0]
      exact ⟨rfl, rfl, rfl, rfl⟩
    · rw [if_neg h0]
      exact readAux_fields orc _ st _ _ _

lemma write_fields (st : Himem) (orc : Nat → Bool × Bool) (src : Nat → Nat)
    (offset length : Nat) :
    (st.write orc src offset length).2.handle = st.handle ∧
    (st.write orc src offset length).2.size = st.size ∧
    (st.write orc src offset length).2.frees = st.frees := by
  unfold Himem.write
  by_cases hg : st.handle = false ∨ st.size ≤ offset
  · rw [if_pos hg]
    exact ⟨rfl, rfl, rfl⟩
  · rw [if_neg hg]
    by_cases h0 : min length (st.size - offset) = 0
    · rw [if_pos h0]
      exact ⟨rfl, rfl, rfl⟩
    · rw [if_neg h0]
      exact writeAux_fields orc src _ st _ _ _ _

lemma read_zero_len (st : Himem) (orc : Nat → Bool × Bool) (offset : Nat) :
    st.read orc offset 0 = ([], st) := by
  unfold Himem.read
  split
  · rfl
  · rw [if_pos (by omega)]

lemma write_zero_len (st : Himem) (orc : Nat → Bool × Bool)
    (src : Nat → Nat) (offset : Nat) :
    st.write orc src offset 0 = (0, st) := by
  unfold Himem.write
  split
  · rfl
  · rw [if_pos (by omega)]

lemma read_val (st : Himem) (offset length : Nat) (hh : st.handle = true)
    (hoff : offset < st.size) :
    (st.read orcT offset length).1 =
      (List.range (min length (st.size - offset))).map
        fun t => st.mem (offset + t) := by
  unfold Himem.read
  rw [if_neg (by simp [hh]; omega)]
  by_cases h0 : min length (st.size - offset) = 0
  · rw [if_pos h0, h0]
    rfl
  · rw [if_neg h0]
    rw [readAux_val (min length (st.size - offset)) st (offset / BLKSZ)
      (offset % BLKSZ) (min length (st.size - offset))
      (Nat.mod_lt _ (by rw [hBLKSZ]; omega)) le_rfl]
    apply List.map_congr_left
    intro t _
    have hdm := Nat.div_add_mod offset BLKSZ
    have hcomm : offset / BLKSZ * BLKSZ = BLKSZ * (offset / BLKSZ) :=
      Nat.mul_comm _ _
    exact congrArg st.mem (by omega)

lemma write_val (st : Himem) (src : Nat → Nat) (offset length : Nat)
    (hh : st.handle = true) (hoff : offset < st.size) :
    (st.write orcT src offset length).1 = min length (st.size - offset) ∧
    ∀ a, (st.write orcT src offset length).2.mem a =
      (if offset ≤ a ∧ a < offset + min length (st.size - offset)
       then src (a - offset) else st.mem a) := by
  unfold Himem.write
  rw [if_neg (by simp [hh]; omega)]
  by_cases h0 : min length (st.size - offset) = 0
  · rw [if_pos h0, h0]
    exact ⟨rfl, fun a => by rw [if_neg (by omega)]⟩
  · rw [if_neg h0]
    obtain ⟨hc, hm⟩ := writeAux_val src (min length (st.size - offset)) st
      (offset / BLKSZ) (offset % BLKSZ) 0 (min length (st.size - offset))
      (Nat.mod_lt _ (by rw [hBLKSZ]; omega)) le_rfl
    have hdm := Nat.div_add_mod offset BLKSZ
    have hcomm : offset / BLKSZ * BLKSZ = BLKSZ * (offset / BLKSZ) :=
      Nat.mul_comm _ _
    have heq : offset / BLKSZ * BLKSZ + offset % BLKSZ = offset := by omega
    refine ⟨by rw [hc]; omega, fun a => ?_⟩
    rw [hm a, heq]
    by_cases hin : offset ≤ a ∧ a < offset + min length (st.size - offset)
    · rw [if_pos hin, if_pos hin]
      exact congrArg src (by omega)
    · rw [if_neg hin, if_neg hin]

/-- C1: on an allocated window manager, for an offset/length range lying
within the region and with every hardware mapping call succeeding, `write`
followed by `read` of the same range returns `length` from both calls and
the bytes read are exactly the bytes written. -/
theorem claim_C1_roundtrip (st : Himem) (src : Nat → Nat)
    (offset length : Nat) (hh : st.handle = true)
    (hlen : offset + length ≤ st.size) :
    (st.write orcT src offset length).1 = length ∧
    ((st.write orcT src offset length).2.read orcT offset length).1.length
      = length ∧
    ((st.write orcT src offset length).2.read orcT offset length).1 =
      (List.range length).map src := by
  by_cases hl0 : length = 0
  · subst hl0
    rw [write_zero_len, read_zero_len]
    exact ⟨rfl, rfl, rfl⟩
  · have hoff : offset < st.size := by omega
    have hmin : min length (st.size - offset) = length := by omega
    obtain ⟨hwc, hwm⟩ := write_val st src offset length hh hoff
    obtain ⟨hf1, hf2, hf3⟩ := write_fields st orcT src offset length
    have hh1 : (st.write orcT src offset length).2.handle = true :=
      hf1.trans hh
    have hoff1 : offset < (st.write orcT src offset length).2.size := by
      rw [hf2]
      exact hoff
    have hmin1 : min length ((st.write orcT src offset length).2.size -
        offset) = length := by
      rw [hf2]
      exact hmin
    have hr := read_val (st.write orcT src offset length).2 offset length
      hh1 hoff1
    rw [hmin1] at hr
    have hbytes : ((st.write orcT src offset length).2.read orcT offset
        length).1 = (List.range length).map src := by
      rw [hr]
      apply List.map_congr_left
      intro t ht
      rw [List.mem_range] at ht
      rw [hwm (offset + t), if_pos (by rw [hmin]; omega)]
      exact congrArg src (by omega)
    refine ⟨by rw [hwc, hmin], ?_, hbytes⟩
    rw [hbytes]
    simp

/-- Allocated test region of two blocks with zeroed content. -/
def testH : Himem :=
  { handle := true, range := false, mappedPtr := false, size := 65536,
    curBlock := SIZE_MAX, mem := fun _ => 0, live := 0, frees := 0 }

/-- Witness for C1: a 16-byte round trip crossing the boundary between
block 0 and block 1. -/
theorem claim_C1_witness :
    (testH.handle = true ∧ 32760 + 16 ≤ testH.size) ∧
    ((testH.write orcT (fun j => j + 1) 32760 16).1 = 16 ∧
     ((testH.write orcT (fun j => j + 1) 32760 16).2.read orcT
        32760 16).1.length = 16 ∧
     ((testH.write orcT (fun j => j + 1) 32760 16).2.read orcT
        32760 16).1 = (List.range 16).map (fun j => j + 1)) :=
  ⟨⟨rfl, by decide⟩,
   claim_C1_roundtrip testH (fun j => j + 1) 32760 16 rfl (by decide)⟩

/-- C6: `read` returns 0 bytes when the manager is unallocated or the
offset is at or past the region end (and `write` symmetrically returns 0);
otherwise, with all remaps succeeding, both transfer exactly
`min(length, region_size - offset)` bytes, never touching bytes past the
region end. -/
theorem claim_C6_clamping (st : Himem) (orc : Nat → Bool × Bool)
    (src : Nat → Nat) (offset length : Nat) :
    (st.handle = false → st.read orc offset length = ([], st) ∧
      st.write orc src offset length = (0, st)) ∧
    (st.size ≤ offset → st.read orc offset length = ([], st) ∧
      st.write orc src offset length = (0, st)) ∧
    (st.handle = true → offset < st.size →
      (st.read orcT offset length).1.length =
        min length (st.size - offset) ∧
      (st.read orcT offset length).1 =
        (List.range (min length (st.size - offset))).map
          (fun t => st.mem (offset + t)) ∧
      offset + min length (st.size - offset) ≤ st.size ∧
      (st.write orcT src offset length).1 =
        min length (st.size - offset) ∧
      (∀ a, a < offset ∨ offset + min length (st.size - offset) ≤ a →
        (st.write orcT src offset length).2.mem a = st.mem a)) := by
  refine ⟨?_, ?_, ?_⟩
  · intro hh
    constructor
    · unfold Himem.read
      rw [if_pos (Or.inl hh)]
    · unfold Himem.write
      rw [if_pos (Or.inl hh)]
  · intro ho
    constructor
    · unfold Himem.read
      rw [if_pos (Or.inr ho)]
    · unfold Himem.write
      rw [if_pos (Or.inr ho)]
  · intro hh hoff
    have hr := read_val st offset length hh hoff
    obtain ⟨hwc, hwm⟩ := write_val st src offset length hh hoff
    refine ⟨by rw [hr]; simp, hr, by omega, hwc, fun a ha => ?_⟩
    rw [hwm a, if_neg (by omega)]

/-- Witness for C6 at concrete inputs: an unallocated manager, an
out-of-range offset, and an in-range read/write clamped at the region
end. -/
theorem claim_C6_witness :
    (Himem.init.handle = false ∧
      Himem.init.read orcT 0 4 = ([], Himem.init)) ∧
    (testH.size ≤ 70000 ∧
      testH.write orcT (fun _ => 9) 70000 4 = (0, testH)) ∧
    (testH.handle = true ∧ 65530 < testH.size ∧
      (testH.read orcT 65530 100).1.length = min 100 (testH.size - 65530) ∧
      (testH.write orcT (fun _ => 9) 65530 100).1 =
        min 100 (testH.size - 65530)) :=
  ⟨⟨rfl, ((claim_C6_clamping Himem.init orcT (fun _ => 9) 0 4).1 rfl).1⟩,
   ⟨by decide, ((claim_C6_clamping testH orcT (fun _ => 9) 70000 4).2.1
      (by decide)).2⟩,
   ⟨rfl, by decide,
    ((claim_C6_clamping testH orcT (fun _ => 9) 65530 100).2.2 rfl
      (by decide)).1,
    (((claim_C6_clamping testH orcT (fun _ => 9) 65530 100).2.2 rfl
      (by decide)).2.2.2).1⟩⟩

lemma good_of_unmapped (st : Himem) (h1 : st.mappedPtr = false)
    (h2 : st.range = false) (h3 : st.curBlock = SIZE_MAX)
    (h4 : st.live = 0) : Good st := by
  refine ⟨h1.trans h2.symm, ?_, ?_⟩
  · rw [h1, h3]
    simp
  · rw [h4, h1]
    simp

lemma unmap_if_good (st : Himem) (hg : Good st) :
    (if st.mappedPtr then st.unmap else st).mappedPtr = false ∧
    (if st.mappedPtr then st.unmap else st).range = false ∧
    (if st.mappedPtr then st.unmap else st).curBlock = SIZE_MAX ∧
    (if st.mappedPtr then st.unmap else st).live = 0 := by
  obtain ⟨h1, h2, h3⟩ := hg
  cases hm : st.mappedPtr
  · rw [if_neg (by simp)]
    refine ⟨hm, h1 ▸ hm, ?_, ?_⟩
    · by_contra hc
      exact absurd (h2.mpr hc) (by simp [hm])
    · rw [h3, hm]
      simp
  · rw [if_pos rfl]
    unfold Himem.unmap
    rw [if_pos (by simp [hm, h1 ▸ hm])]
    refine ⟨rfl, rfl, rfl, ?_⟩
    show st.live - 1 = 0
    rw [h3, hm]
    simp

lemma ensure_good (st : Himem) (b : Nat) (r m : Bool) (hg : Good st)
    (hb : b ≠ SIZE_MAX) : Good (st.ensureBlockMapped b r m).2 := by
  unfold Himem.ensureBlockMapped
  by_cases hcb : b = st.curBlock
  · rw [if_pos hcb]
    exact hg
  · rw [if_neg hcb]
    obtain ⟨u1, u2, u3, u4⟩ := unmap_if_good st hg
    cases r
    · rw [if_neg (by simp)]
      exact good_of_unmapped _ u1 u2 u3 u4
    · rw [if_pos rfl]
      cases m
      · rw [if_neg (by simp)]
        exact good_of_unmapped _ u1 rfl u3 u4
      · rw [if_pos rfl]
        exact ⟨rfl, by simp [hb], by simp [u4]⟩

lemma ensure_fail_unmapped (st : Himem) (b : Nat) (r m : Bool)
    (hg : Good st) (hfail : (st.ensureBlockMapped b r m).1 = false) :
    (st.ensureBlockMapped b r m).2.mappedPtr = false ∧
    (st.ensureBlockMapped b r m).2.curBlock = SIZE_MAX ∧
    (st.ensureBlockMapped b r m).2.live = 0 := by
  unfold Himem.ensureBlockMapped at hfail ⊢
  by_cases hcb : b = st.curBlock
  · rw [if_pos hcb] at hfail
    exact absurd hfail (by simp)
  · rw [if_neg hcb] at hfail ⊢
    obtain ⟨u1, u2, u3, u4⟩ := unmap_if_good st hg
    cases r
    · rw [if_neg (by simp)] at hfail ⊢
      exact ⟨u1, u3, u4⟩
    · rw [if_pos rfl] at hfail ⊢
      cases m
      · rw [if_neg (by simp)] at hfail ⊢
        exact ⟨u1, u3, u4⟩
      · rw [if_pos rfl] at hfail
        exact absurd hfail (by simp)

lemma readAux_good (orc : Nat → Bool × Bool) (fuel : Nat) :
    ∀ (st : Himem) (bi bo r : Nat), Good st → bi + fuel ≤ SIZE_MAX →
      Good (Himem.readAux orc fuel st bi bo r).2 := by
  induction fuel with
  | zero => exact fun st bi bo r hg _ => hg
  | succ n ih =>
    intro st bi bo r hg hbi
    show Good ((if r = 0 then (([] : List Nat), st) else _).2)
    by_cases h0 : r = 0
    · rw [if_pos h0]
      exact hg
    · rw [if_neg h0]
      simp only [Himem.readAux]
      have hb : bi ≠ SIZE_MAX := by omega
      have hgood := ensure_good st bi (orc bi).1 (orc bi).2 hg hb
      by_cases hs : (st.ensureBlockMapped bi (orc bi).1 (orc bi).2).1
      · rw [if_pos hs]
        exact ih _ (bi + 1) 0 _ hgood (by omega)
      · rw [if_neg hs]
        exact hgood

lemma writeAux_good (orc : Nat → Bool × Bool) (src : Nat → Nat)
    (fuel : Nat) :
    ∀ (st : Himem) (bi bo w r : Nat), Good st → bi + fuel ≤ SIZE_MAX →
      Good (Himem.writeAux orc src fuel st bi bo w r).2 := by
  induction fuel with
  | zero => exact fun st bi bo w r hg _ => hg
  | succ n ih =>
    intro st bi bo w r hg hbi
    show Good ((if r = 0 then (w, st) else _).2)
    by_cases h0 : r = 0
    · rw [if_pos h0]
      exact hg
    · rw [if_neg h0]
      simp only [Himem.writeAux]
      have hb : bi ≠ SIZE_MAX := by omega
      have hgood := ensure_good st bi (orc bi).1 (orc bi).2 hg hb
      by_cases hs : (st.ensureBlockMapped bi (orc bi).1 (orc bi).2).1
      · rw [if_pos hs]
        refine ih _ (bi + 1) 0 _ _ ?_ (by omega)
        exact hgood
      · rw [if_neg hs]
        exact hgood

lemma read_good (st : Himem) (orc : Nat → Bool × Bool)
    (offset length : Nat) (hg : Good st) (hsz : st.size ≤ SIZE_MAX) :
    Good (st.read orc offset length).2 := by
  unfold Himem.read
  by_cases hgd : st.handle = false ∨ st.size ≤ offset
  · rw [if_pos hgd]
    exact hg
  · rw [if_neg hgd]
    by_cases h0 : min length (st.size - offset) = 0
    · rw [if_pos h0]
      exact hg
    · rw [if_neg h0]
      have hdiv : offset / BLKSZ ≤ offset := Nat.div_le_self _ _
      exact readAux_good orc _ st _ _ _ hg (by omega)

lemma write_good (st : Himem) (orc : Nat → Bool × Bool) (src : Nat → Nat)
    (offset length : Nat) (hg : Good st) (hsz : st.size ≤ SIZE_MAX) :
    Good (st.write orc src offset length).2 := by
  unfold Himem.write
  by_cases hgd : st.handle = false ∨ st.size ≤ offset
  · rw [if_pos hgd]
    exact hg
  · rw [if_neg hgd]
    by_cases h0 : min length (st.size - offset) = 0
    · rw [if_pos h0]
      exact hg
    · rw [if_neg h0]
      have hdiv : offset / BLKSZ ≤ offset := Nat.div_le_self _ _
      exact writeAux_good orc src _ st _ _ _ _ hg (by omega)

lemma roundUpBlk_lt (n : Nat) : roundUpBlk n < M32 := by
  unfold roundUpBlk
  have h1 : (n + (BLKSZ - 1)) % M32 < M32 :=
    Nat.mod_lt _ (by norm_num [M32])
  have h2 : (n + (BLKSZ - 1)) % M32 / BLKSZ * BLKSZ ≤
      (n + (BLKSZ - 1)) % M32 := Nat.div_mul_le_self _ _
  omega

lemma allocate_fields (st : Himem) (n : Nat) (ok : Bool) :
    (st.allocate n ok).2.mappedPtr = st.mappedPtr ∧
    (st.allocate n ok).2.range = st.range ∧
    (st.allocate n ok).2.curBlock = st.curBlock ∧
    (st.allocate n ok).2.live = st.live ∧
    ((st.allocate n ok).2.size = st.size ∨
      (st.allocate n ok).2.size = roundUpBlk n) := by
  unfold Himem.allocate
  by_cases hh : st.handle
  · rw [if_pos hh]
    exact ⟨rfl, rfl, rfl, rfl, Or.inl rfl⟩
  · rw [if_neg hh]
    cases ok
    · rw [if_neg (by simp)]
      exact ⟨rfl, rfl, rfl, rfl, Or.inr rfl⟩
    · rw [if_pos rfl]
      exact ⟨rfl, rfl, rfl, rfl, Or.inr rfl⟩

lemma good_iff_fields (st st2 : Himem) (h1 : st2.mappedPtr = st.mappedPtr)
    (h2 : st2.range = st.range) (h3 : st2.curBlock = st.curBlock)
    (h4 : st2.live = st.live) (hg : Good st) : Good st2 := by
  obtain ⟨g1, g2, g3⟩ := hg
  exact ⟨by rw [h1, h2, g1], by rw [h1, h3]; exact g2,
    by rw [h4, h1, g3]⟩

lemma unmap_good (st : Himem) (hg : Good st) : Good st.unmap := by
  cases hm : st.mappedPtr
  · rw [unmap_of_not_mapped st hm]
    exact hg
  · have h := unmap_if_good st hg
    rw [if_pos hm] at h
    exact good_of_unmapped _ h.1 h.2.1 h.2.2.1 h.2.2.2

lemma unmap_size (st : Himem) : st.unmap.size = st.size := by
  unfold Himem.unmap
  split <;> rfl

lemma free_good (st : Himem) (hg : Good st) : Good st.free := by
  by_cases hh : st.handle
  · rw [free_of_handle st hh]
    exact good_iff_fields st.unmap _ rfl rfl rfl rfl (unmap_good st hg)
  · rw [free_of_not_handle st (by simpa using hh)]
    exact hg

lemma free_size_le (st : Himem) (hsz : st.size ≤ SIZE_MAX) :
    st.free.size ≤ SIZE_MAX := by
  by_cases hh : st.handle
  · rw [free_of_handle st hh]
    show (0 : Nat) ≤ SIZE_MAX
    exact Nat.zero_le _
  · rw [free_of_not_handle st (by simpa using hh)]
    exact hsz

/-- Every publicly reachable window-manager state is well formed: the
mapping fields are in sync and at most one hardware mapping is live. -/
lemma reachable_inv (st : Himem) (h : Reachable st) :
    Good st ∧ st.size ≤ SIZE_MAX := by
  induction h with
  | init => exact ⟨by decide, by decide⟩
  | allocate st n ok _ ih =>
    obtain ⟨hg, hsz⟩ := ih
    obtain ⟨a1, a2, a3, a4, a5⟩ := allocate_fields st n ok
    refine ⟨good_iff_fields st _ a1 a2 a3 a4 hg, ?_⟩
    rcases a5 with h5 | h5
    · rw [h5]
      exact hsz
    · rw [h5]
      have := roundUpBlk_lt n
      unfold SIZE_MAX
      unfold M32 at this
      omega
  | read st orc o l _ ih =>
    obtain ⟨hg, hsz⟩ := ih
    refine ⟨read_good st orc o l hg hsz, ?_⟩
    rw [(read_fields st orc o l).2.2.1]
    exact hsz
  | write st orc s o l _ ih =>
    obtain ⟨hg, hsz⟩ := ih
    refine ⟨write_good st orc s o l hg hsz, ?_⟩
    rw [(write_fields st orc s o l).2.1]
    exact hsz
  | unmap st _ ih =>
    exact ⟨unmap_good st ih.1, (unmap_size st) ▸ ih.2⟩
  | free st _ ih =>
    exact ⟨free_good st ih.1, free_size_le st ih.2⟩

/-- C7: every reachable window-manager state has at most one live hardware
mapping; `ensure_block_mapped` is a no-op when the index is already mapped,
always leaves at most one mapping (the previous window is unmapped before
the next is mapped), and on failure leaves the manager unmapped with the
`SIZE_MAX` sentinel. -/
theorem claim_C7_single_mapping :
    (∀ st : Himem, Reachable st → st.live ≤ 1) ∧
    (∀ (st : Himem) (b : Nat) (r m : Bool), b = st.curBlock →
      st.ensureBlockMapped b r m = (true, st)) ∧
    (∀ (st : Himem) (b : Nat) (r m : Bool), Good st →
      (st.ensureBlockMapped b r m).1 = false →
      (st.ensureBlockMapped b r m).2.mappedPtr = false ∧
      (st.ensureBlockMapped b r m).2.curBlock = SIZE_MAX ∧
      (st.ensureBlockMapped b r m).2.live = 0) ∧
    (∀ (st : Himem) (b : Nat) (r m : Bool), Good st → b ≠ SIZE_MAX →
      Good (st.ensureBlockMapped b r m).2) := by
  refine ⟨?_, ?_, ensure_fail_unmapped, ensure_good⟩
  · intro st h
    obtain ⟨⟨_, _, g3⟩, _⟩ := reachable_inv st h
    rw [g3]
    split <;> omega
  · intro st b r m hb
    unfold Himem.ensureBlockMapped
    rw [if_pos hb]

/-- Witness for C7 at concrete states: the initial state is reachable with
at most one live mapping; a concrete no-op remap, a concrete failing remap
and a concrete successful remap on the two-block test region. -/
theorem claim_C7_witness :
    Himem.init.live ≤ 1 ∧
    testH.ensureBlockMapped testH.curBlock true true = (true, testH) ∧
    (Good testH ∧ (testH.ensureBlockMapped 0 false false).1 = false ∧
      (testH.ensureBlockMapped 0 false false).2.mappedPtr = false ∧
      (testH.ensureBlockMapped 0 false false).2.curBlock = SIZE_MAX ∧
      (testH.ensureBlockMapped 0 false false).2.live = 0) ∧
    ((1 : Nat) ≠ SIZE_MAX ∧ Good (testH.ensureBlockMapped 1 true true).2) :=
  ⟨claim_C7_single_mapping.1 Himem.init Reachable.init,
   claim_C7_single_mapping.2.1 testH testH.curBlock true true rfl,
   ⟨by decide, by decide,
    claim_C7_single_mapping.2.2.1 testH 0 false false (by decide)
      (by decide)⟩,
   ⟨by decide,
    claim_C7_single_mapping.2.2.2 testH 1 true true (by decide)
      (by decide)⟩⟩

/-- C9: `unmap()` and `free()` are idempotent: calling either when nothing
is mapped / no handle is held is a no-op; repeating either is a no-op;
`free()` on an allocated block unmaps first, releases the handle exactly
once and resets the reported size to 0, so a second `free()` releases
nothing further. -/
theorem claim_C9_idempotent_release :
    (∀ st : Himem, st.mappedPtr = false → st.unmap = st) ∧
    (∀ st : Himem, st.unmap.unmap = st.unmap) ∧
    (∀ st : Himem, st.handle = false → st.free = st) ∧
    (∀ st : Himem, st.free.free = st.free) ∧
    (∀ st : Himem, st.handle = true →
      st.free.size = 0 ∧ st.free.handle = false ∧
      st.free.frees = st.frees + 1 ∧
      (st.mappedPtr = st.range → st.free.mappedPtr = false)) := by
  refine ⟨unmap_of_not_mapped, ?_, free_of_not_handle, ?_, ?_⟩
  · intro st
    rcases unmap_mappedPtr st with h | h
    · exact unmap_of_not_mapped _ h
    · simp only [h]
  · intro st
    exact free_of_not_handle _ (free_handle st)
  · intro st h
    rw [free_of_handle st h]
    exact ⟨rfl, rfl, by simp [unmap_frees],
      fun hmr => unmap_mapped_of_sync st hmr⟩

/-- Witness for C9 at concrete states: the default-constructed manager and
a freshly allocated one. -/
theorem claim_C9_witness :
    (Himem.init.mappedPtr = false ∧ Himem.init.unmap = Himem.init) ∧
    (Himem.init.handle = false ∧ Himem.init.free = Himem.init) ∧
    ((Himem.init.allocate 100 true).2.handle = true ∧
      (Himem.init.allocate 100 true).2.free.size = 0 ∧
      (Himem.init.allocate 100 true).2.free.handle = false ∧
      (Himem.init.allocate 100 true).2.free.frees =
        (Himem.init.allocate 100 true).2.frees + 1 ∧
      ((Himem.init.allocate 100 true).2.mappedPtr =
          (Himem.init.allocate 100 true).2.range →
        (Himem.init.allocate 100 true).2.free.mappedPtr = false)) :=
  ⟨⟨rfl, claim_C9_idempotent_release.1 Himem.init rfl⟩,
   ⟨rfl, claim_C9_idempotent_release.2.2.1 Himem.init rfl⟩,
   ⟨rfl, claim_C9_idempotent_release.2.2.2.2 _ rfl⟩⟩

/-- C10: a failed `allocate` on an unallocated manager leaves no handle, so
every subsequent `read`/`write` returns 0 bytes, but `get_size()` reports
the request rounded up to a multiple of the block size (the `size` field is
set before the hardware call and is not reset on failure), not 0. -/
theorem claim_C10_alloc_failure_size (st : Himem) (req : Nat)
    (hh : st.handle = false) :
    (st.allocate req false).1 = false ∧
    (st.allocate req false).2.handle = false ∧
    (st.allocate req false).2.get_size = roundUpBlk req ∧
    (∀ orc offset length, (st.allocate req false).2.read orc offset length
        = ([], (st.allocate req false).2)) ∧
    (∀ orc src offset length,
      (st.allocate req false).2.write orc src offset length
        = (0, (st.allocate req false).2)) ∧
    (0 < req → req + BLKSZ ≤ M32 → (st.allocate req false).2.get_size ≠ 0) := by
  have hst : st.allocate req false =
      (false, { st with size := roundUpBlk req }) := by
    unfold Himem.allocate
    simp [hh]
  rw [hst]
  refine ⟨rfl, hh, rfl, ?_, ?_, ?_⟩
  · intro orc offset length
    unfold Himem.read
    simp [hh]
  · intro orc src offset length
    unfold Himem.write
    simp [hh]
  · intro h1 h2
    show roundUpBlk req ≠ 0
    unfold roundUpBlk
    have hB : BLKSZ = 32768 := by norm_num [BLKSZ]
    have hmod : (req + (BLKSZ - 1)) % M32 = req + (BLKSZ - 1) := by
      apply Nat.mod_eq_of_lt
      have : BLKSZ ≤ M32 := by norm_num [BLKSZ, M32]
      omega
    rw [hmod]
    have hq : 1 ≤ (req + (BLKSZ - 1)) / BLKSZ := by
      rw [Nat.one_le_div_iff (by norm_num [BLKSZ])]
      omega
    have : 0 < (req + (BLKSZ - 1)) / BLKSZ * BLKSZ :=
      Nat.mul_pos hq (by norm_num [BLKSZ])
    omega

/-- Witness for C10 on the default-constructed manager with a 100-byte
request. -/
theorem claim_C10_witness :
    Himem.init.handle = false ∧
    ((Himem.init.allocate 100 false).1 = false ∧
     (Himem.init.allocate 100 false).2.get_size = 32768 ∧
     (Himem.init.allocate 100 false).2.read orcT 0 1
        = ([], (Himem.init.allocate 100 false).2) ∧
     (Himem.init.allocate 100 false).2.get_size ≠ 0) :=
  ⟨rfl,
   (claim_C10_alloc_failure_size Himem.init 100 rfl).1,
   by decide,
   (claim_C10_alloc_failure_size Himem.init 100 rfl).2.2.2.1 orcT 0 1,
   (claim_C10_alloc_failure_size Himem.init 100 rfl).2.2.2.2.2
     (by decide) (by decide)⟩

lemma init_alloc_fail (b : Nat) : Himem.init.allocate b false =
    (false, { Himem.init with size := roundUpBlk b }) := by
  unfold Himem.allocate
  rw [if_neg (by decide), if_neg (by simp)]

lemma reallocate_fail (esz : Nat) (v : Vec) (orc : Nat → Bool × Bool)
    (temp0 : Nat → Nat) (newCapacity : Nat) (hgt : v.cap < newCapacity) :
    v.reallocate esz orc false temp0 newCapacity = (false, v) := by
  unfold Vec.reallocate
  rw [if_neg (by omega)]
  simp [init_alloc_fail]

lemma growth_target_gt (c : Nat) :
    c < (if c = 0 then minElements else c * 2) := by
  split
  · simp only [minElements]
    omega
  · rename_i h
    omega

/-- C5: when the growth allocation is denied by the hardware, `push_back`,
`insert`, `resize` and `reserve` leave the vector (count, capacity and
backing region) exactly as it was: the triggering mutation has no partial
effect. -/
theorem claim_C5_growth_failure (esz : Nat) (v : Vec)
    (orc : Nat → Bool × Bool) (temp0 value : Nat → Nat) (n pos : Nat) :
    (v.cap ≤ v.count → v.push_back esz orc false temp0 value = v) ∧
    (v.cap ≤ v.count → v.insert esz orc false temp0 pos value = v) ∧
    (v.cap < n → v.resize esz orc false temp0 n = v) ∧
    (v.cap < n → v.reserve esz orc false temp0 n = v) := by
  refine ⟨?_, ?_, ?_, ?_⟩
  · intro hc
    unfold Vec.push_back
    rw [if_pos hc, reallocate_fail esz v orc temp0 _ (growth_target_gt _)]
    simp
  · intro hc
    unfold Vec.insert
    by_cases hp : v.count < pos
    · rw [if_pos hp]
    · rw [if_neg hp, if_pos hc,
        reallocate_fail esz v orc temp0 _ (growth_target_gt _)]
      simp
  · intro hn
    unfold Vec.resize
    rw [if_pos hn, reallocate_fail esz v orc temp0 n hn]
    simp
  · intro hn
    unfold Vec.reserve
    rw [if_pos hn, reallocate_fail esz v orc temp0 n hn]

/-- Witness for C5 on the empty default-constructed vector, whose first
growth is denied. -/
theorem claim_C5_witness :
    (Vec.init.cap ≤ Vec.init.count ∧
      Vec.init.push_back 1 orcT false (fun _ => 0) (fun _ => 7)
        = Vec.init) ∧
    (Vec.init.cap ≤ Vec.init.count ∧
      Vec.init.insert 1 orcT false (fun _ => 0) 0 (fun _ => 7)
        = Vec.init) ∧
    (Vec.init.cap < 5 ∧
      Vec.init.resize 1 orcT false (fun _ => 0) 5 = Vec.init) ∧
    (Vec.init.cap < 5 ∧
      Vec.init.reserve 1 orcT false (fun _ => 0) 5 = Vec.init) :=
  ⟨⟨le_rfl, (claim_C5_growth_failure 1 Vec.init orcT (fun _ => 0)
      (fun _ => 7) 5 0).1 le_rfl⟩,
   ⟨le_rfl, (claim_C5_growth_failure 1 Vec.init orcT (fun _ => 0)
      (fun _ => 7) 5 0).2.1 le_rfl⟩,
   ⟨by decide, (claim_C5_growth_failure 1 Vec.init orcT (fun _ => 0)
      (fun _ => 7) 5 0).2.2.1 (by decide)⟩,
   ⟨by decide, (claim_C5_growth_failure 1 Vec.init orcT (fun _ => 0)
      (fun _ => 7) 5 0).2.2.2 (by decide)⟩⟩

lemma init_alloc_success (b : Nat) : Himem.init.allocate b true =
    (true, { Himem.init with size := roundUpBlk b, handle := true }) := by
  unfold Himem.allocate
  rw [if_neg (by decide), if_pos rfl]

lemma copyLoop_size (esz : Nat) (orc : Nat → Bool × Bool) :
    ∀ (k i : Nat) (oldM newM : Himem) (temp : Nat → Nat),
      (Vec.copyLoop esz orc k i oldM newM temp).2.1.size = newM.size := by
  intro k
  induction k with
  | zero => exact fun i oldM newM temp => rfl
  | succ n ih =>
    intro i oldM newM temp
    show (Vec.copyLoop esz orc n (i + 1) _ _ _).2.1.size = newM.size
    exact (ih (i + 1) (oldM.read orc (i * esz) esz).2
        (newM.write orc _ (i * esz) esz).2 _).trans
      (write_fields newM orc _ (i * esz) esz).2.1

lemma copyLoop_handle (esz : Nat) (orc : Nat → Bool × Bool) :
    ∀ (k i : Nat) (oldM newM : Himem) (temp : Nat → Nat),
      (Vec.copyLoop esz orc k i oldM newM temp).2.1.handle
        = newM.handle := by
  intro k
  induction k with
  | zero => exact fun i oldM newM temp => rfl
  | succ n ih =>
    intro i oldM newM temp
    show (Vec.copyLoop esz orc n (i + 1) _ _ _).2.1.handle = newM.handle
    exact (ih (i + 1) (oldM.read orc (i * esz) esz).2
        (newM.write orc _ (i * esz) esz).2 _).trans
      (write_fields newM orc _ (i * esz) esz).1

lemma reallocate_cap (esz : Nat) (v : Vec) (orc : Nat → Bool × Bool)
    (temp0 : Nat → Nat) (newCapacity : Nat) (hgt : v.cap < newCapacity) :
    (v.reallocate esz orc true temp0 newCapacity).1 = true ∧
    (v.reallocate esz orc true temp0 newCapacity).2.count = v.count ∧
    (v.reallocate esz orc true temp0 newCapacity).2.cap =
      roundUpBlk (max newCapacity minElements * esz) / esz ∧
    (v.reallocate esz orc true temp0 newCapacity).2.memory.size =
      roundUpBlk (max newCapacity minElements * esz) ∧
    (v.reallocate esz orc true temp0 newCapacity).2.memory.handle
      = true := by
  unfold Vec.reallocate
  rw [if_neg (by omega)]
  simp [init_alloc_success, calculateSizeBytes, copyLoop_size,
    copyLoop_handle]

lemma push_nogrow (esz : Nat) (v : Vec) (orc : Nat → Bool × Bool)
    (aOk : Bool) (t0 val : Nat → Nat) (h : v.count < v.cap) :
    (v.push_back esz orc aOk t0 val).count = v.count + 1 ∧
    (v.push_back esz orc aOk t0 val).cap = v.cap := by
  unfold Vec.push_back
  rw [if_neg (show ¬v.cap ≤ v.count by omega)]
  exact ⟨rfl, rfl⟩

lemma push_grow (esz : Nat) (v : Vec) (orc : Nat → Bool × Bool)
    (t0 val : Nat → Nat) (h : v.cap ≤ v.count) :
    (v.push_back esz orc true t0 val).count = v.count + 1 ∧
    (v.push_back esz orc true t0 val).cap =
      roundUpBlk (max (if v.cap = 0 then minElements else v.cap * 2)
        minElements * esz) / esz := by
  unfold Vec.push_back
  rw [if_pos h]
  have hr := reallocate_cap esz v orc t0 _ (growth_target_gt v.cap)
  rw [if_pos hr.1]
  exact ⟨by rw [hr.2.1], hr.2.2.1⟩

lemma hM32 : M32 = 4294967296 := by norm_num [M32]

lemma roundUpBlk_exact (x : Nat) (hx : 32768 ∣ x)
    (hlt : x + 32767 < 4294967296) : roundUpBlk x = x := by
  obtain ⟨k, rfl⟩ := hx
  unfold roundUpBlk
  rw [hBLKSZ, hM32]
  omega

lemma roundUpBlk_small (x : Nat) (hx : 0 < x) (hle : x ≤ 32768) :
    roundUpBlk x = 32768 := by
  unfold roundUpBlk
  rw [hBLKSZ, hM32]
  omega

lemma roundUpBlk_pow2 (p : Nat) (hp : p ≤ 31) :
    roundUpBlk (2 ^ p) = 2 ^ max p 15 := by
  by_cases h : p ≤ 15
  · rw [Nat.max_eq_right h,
      roundUpBlk_small (2 ^ p) (Nat.pow_pos (by norm_num))
        (by calc 2 ^ p ≤ 2 ^ 15 := Nat.pow_le_pow_right (by norm_num) h
              _ = 32768 := by norm_num)]
    norm_num
  · rw [Nat.max_eq_left (by omega)]
    apply roundUpBlk_exact
    · have : (32768 : Nat) = 2 ^ 15 := by norm_num
      rw [this]
      exact pow_dvd_pow 2 (by omega)
    · have h31 : 2 ^ p ≤ 2 ^ 31 := Nat.pow_le_pow_right (by norm_num) hp
      have : (2 : Nat) ^ 31 = 2147483648 := by norm_num
      omega

lemma grow_cap_pow2 (j c : Nat) (hc : 4 ≤ c) (hbound : c + j ≤ 31) :
    roundUpBlk (2 ^ c * 2 ^ j) / 2 ^ j = 2 ^ (max (c + j) 15 - j) ∧
    4 ≤ max (c + j) 15 - j ∧ c ≤ max (c + j) 15 - j := by
  rw [← pow_add, roundUpBlk_pow2 (c + j) hbound,
    Nat.pow_div (by omega) (by norm_num)]
  exact ⟨rfl, by omega, by omega⟩

/-- Invariant carried through a run of `push_back` calls with all
allocations granted: the count tracks the number of pushes and the capacity
is 0 (never grown) or a power of two at least `min_elements`. -/
lemma pushN_induct (j esz : Nat) (hesz : esz = 2 ^ j)
    (h16 : minElements * esz ≤ 2 ^ 31) (temp0 : Nat → Nat)
    (vals : Nat → Nat → Nat) :
    ∀ (n : Nat) (v : Vec) (k : Nat), v.count = k →
      (v.cap = 0 ∧ k = 0 ∨ ∃ c, 4 ≤ c ∧ v.cap = 2 ^ c ∧ k ≤ v.cap) →
      (k + n) * esz ≤ 2 ^ 30 →
      (Vec.pushN esz orcT true temp0 vals n v).count = k + n ∧
      ((Vec.pushN esz orcT true temp0 vals n v).cap = 0 ∧ k + n = 0 ∨
        ∃ c, 4 ≤ c ∧ (Vec.pushN esz orcT true temp0 vals n v).cap = 2 ^ c ∧
          k + n ≤ (Vec.pushN esz orcT true temp0 vals n v).cap) := by
  have hj31 : 4 + j ≤ 31 := by
    have hme : minElements * esz = 2 ^ (4 + j) := by
      rw [hesz, pow_add]
      norm_num [minElements]
    rw [hme] at h16
    exact (Nat.pow_le_pow_iff_right (by norm_num)).mp h16
  intro n
  induction n with
  | zero =>
    intro v k hk hinv _
    refine ⟨?_, ?_⟩
    · show v.count = k + 0
      omega
    · show v.cap = 0 ∧ k + 0 = 0 ∨
        ∃ c, 4 ≤ c ∧ v.cap = 2 ^ c ∧ k + 0 ≤ v.cap
      simpa using hinv
  | succ n ih =>
    intro v k hk hinv hbound
    show (Vec.pushN esz orcT true temp0 vals n
        (v.push_back esz orcT true temp0 (vals v.count))).count = k + (n + 1)
      ∧ ((Vec.pushN esz orcT true temp0 vals n
          (v.push_back esz orcT true temp0 (vals v.count))).cap = 0 ∧
          k + (n + 1) = 0 ∨
        ∃ c, 4 ≤ c ∧ (Vec.pushN esz orcT true temp0 vals n
          (v.push_back esz orcT true temp0 (vals v.count))).cap = 2 ^ c ∧
          k + (n + 1) ≤ (Vec.pushN esz orcT true temp0 vals n
            (v.push_back esz orcT true temp0 (vals v.count))).cap)
    by_cases hgrow : v.count < v.cap
    · obtain ⟨p1, p2⟩ := push_nogrow esz v orcT true temp0
        (vals v.count) hgrow
      have hinv2 : (v.push_back esz orcT true temp0 (vals v.count)).cap = 0
          ∧ k + 1 = 0 ∨ ∃ c, 4 ≤ c ∧
          (v.push_back esz orcT true temp0 (vals v.count)).cap = 2 ^ c ∧
          k + 1 ≤ (v.push_back esz orcT true temp0 (vals v.count)).cap := by
        rcases hinv with ⟨h1, _⟩ | ⟨c, hc1, hc2, _⟩
        · omega
        · exact Or.inr ⟨c, hc1, p2.trans hc2, by omega⟩
      obtain ⟨r1, r2⟩ := ih (v.push_back esz orcT true temp0 (vals v.count))
        (k + 1) (by rw [p1, hk]) hinv2
        (by have hkn : k + 1 + n = k + (n + 1) := by omega
            rw [hkn]
            exact hbound)
      exact ⟨by rw [r1]; omega, by
        rcases r2 with ⟨h1, h2⟩ | ⟨c, hc1, hc2, hc3⟩
        · exact Or.inl ⟨h1, by omega⟩
        · exact Or.inr ⟨c, hc1, hc2, by omega⟩⟩
    · obtain ⟨p1, p2⟩ := push_grow esz v orcT temp0 (vals v.count)
        (by omega)
      have hcapval : ∃ d, 4 ≤ d ∧
          (v.push_back esz orcT true temp0 (vals v.count)).cap = 2 ^ d ∧
          k + 1 ≤ 2 ^ d := by
        rcases hinv with ⟨h1, h2⟩ | ⟨c, hc1, hc2, hc3⟩
        · have htgt : max (if v.cap = 0 then minElements else v.cap * 2)
              minElements = 2 ^ 4 := by
            rw [if_pos h1]
            norm_num [minElements]
          rw [p2, htgt, hesz]
          obtain ⟨g1, g2, _⟩ := grow_cap_pow2 j 4 le_rfl (by omega)
          refine ⟨max (4 + j) 15 - j, g2, g1, ?_⟩
          have : (16 : Nat) = 2 ^ 4 := by norm_num
          have h4 : (2 : Nat) ^ 4 ≤ 2 ^ (max (4 + j) 15 - j) :=
            Nat.pow_le_pow_right (by norm_num) (by omega)
          omega
        · have hkc : k = v.cap := by omega
          have hcpos : v.cap ≠ 0 := by
            have : (0 : Nat) < 2 ^ c := Nat.pow_pos (by norm_num)
            omega
          have htgt : max (if v.cap = 0 then minElements else v.cap * 2)
              minElements = 2 ^ (c + 1) := by
            rw [if_neg hcpos, hc2]
            have h32 : (2 : Nat) ^ 4 ≤ 2 ^ c :=
              Nat.pow_le_pow_right (by norm_num) hc1
            have : 2 ^ c * 2 = 2 ^ (c + 1) := by ring
            rw [this]
            apply Nat.max_eq_left
            have : (2 : Nat) ^ 4 ≤ 2 ^ (c + 1) :=
              Nat.pow_le_pow_right (by norm_num) (by omega)
            norm_num [minElements]
            omega
          have hcj : c + 1 + j ≤ 31 := by
            have hce : v.cap * esz = 2 ^ (c + j) := by
              rw [hc2, hesz, pow_add]
            have hle : v.cap * esz ≤ 2 ^ 30 := by
              have : v.cap * esz ≤ (k + (n + 1)) * esz :=
                Nat.mul_le_mul_right esz (by omega)
              omega
            rw [hce] at hle
            have := (Nat.pow_le_pow_iff_right
              (show (1 : Nat) < 2 by norm_num)).mp hle
            omega
          rw [p2, htgt, hesz]
          obtain ⟨g1, g2, g3⟩ := grow_cap_pow2 j (c + 1) (by omega) hcj
          refine ⟨max (c + 1 + j) 15 - j, g2, g1, ?_⟩
          have hdouble : 2 ^ c + 1 ≤ 2 ^ (c + 1) := by
            have : (0 : Nat) < 2 ^ c := Nat.pow_pos (by norm_num)
            have h2 : 2 ^ (c + 1) = 2 ^ c * 2 := by ring
            omega
          have hmono : (2 : Nat) ^ (c + 1) ≤ 2 ^ (max (c + 1 + j) 15 - j) :=
            Nat.pow_le_pow_right (by norm_num) (by omega)
          omega
      obtain ⟨d, hd1, hd2, hd3⟩ := hcapval
      obtain ⟨r1, r2⟩ := ih (v.push_back esz orcT true temp0 (vals v.count))
        (k + 1) (by rw [p1, hk]) (Or.inr ⟨d, hd1, hd2, by omega⟩)
        (by have hkn : k + 1 + n = k + (n + 1) := by omega
            rw [hkn]
            exact hbound)
      exact ⟨by rw [r1]; omega, by
        rcases r2 with ⟨h1, h2⟩ | ⟨c, hc1, hc2, hc3⟩
        · exact Or.inl ⟨h1, by omega⟩
        · exact Or.inr ⟨c, hc1, hc2, by omega⟩⟩

/-- C2 (amended): pushing N times onto a default-constructed vector with
all allocations granted yields `size() = N` and `capacity() ≥ N`; provided
the element size is a power of two (and the run stays within 32-bit
`size_t` bounds), the capacity is a power-of-two multiple of
`MIN_ELEMENTS = 16` once growth has occurred; and when growth triggers on a
vector whose capacity is 0 or at least `MIN_ELEMENTS`, the new capacity is
the byte-rounded image of `max(cap == 0 ? MIN_ELEMENTS : cap * 2,
requested)`. -/
theorem claim_C2_pushN (j esz N : Nat) (temp0 : Nat → Nat)
    (vals : Nat → Nat → Nat) (hesz : esz = 2 ^ j)
    (h16 : minElements * esz ≤ 2 ^ 31) (hN : N * esz ≤ 2 ^ 30) :
    (Vec.pushN esz orcT true temp0 vals N Vec.init).count = N ∧
    N ≤ (Vec.pushN esz orcT true temp0 vals N Vec.init).cap ∧
    (1 ≤ N → ∃ m, (Vec.pushN esz orcT true temp0 vals N Vec.init).cap
      = minElements * 2 ^ m) ∧
    (∀ (w : Vec) (val : Nat → Nat), w.count = w.cap →
      (w.cap = 0 ∨ minElements ≤ w.cap) →
      (w.push_back esz orcT true temp0 val).cap =
        roundUpBlk (growthTarget w.cap (w.count + 1) * esz) / esz) := by
  have hm16 : minElements = 16 := by norm_num [minElements]
  obtain ⟨hcount, hinv⟩ := pushN_induct j esz hesz h16 temp0 vals N
    Vec.init 0 rfl (Or.inl ⟨rfl, rfl⟩)
    (by have h0 : 0 + N = N := by omega
        rw [h0]
        exact hN)
  refine ⟨by omega, ?_, ?_, ?_⟩
  · rcases hinv with ⟨_, h2⟩ | ⟨c, _, _, hc3⟩
    · omega
    · omega
  · intro hN1
    rcases hinv with ⟨_, h2⟩ | ⟨c, hc1, hc2, _⟩
    · omega
    · refine ⟨c - 4, ?_⟩
      rw [hc2, hm16]
      have : (16 : Nat) = 2 ^ 4 := by norm_num
      rw [this, ← pow_add]
      exact congrArg (2 ^ ·) (by omega)
  · intro w val hwc hcap
    have hg := push_grow esz w orcT temp0 val (le_of_eq hwc.symm)
    rw [hg.2]
    have htgt : max (if w.cap = 0 then minElements else w.cap * 2)
        minElements = growthTarget w.cap (w.count + 1) := by
      unfold growthTarget
      rcases hcap with h | h
      · rw [if_pos h, hwc, h, hm16]
        norm_num
      · rw [if_neg (by omega), hwc]
        omega
    rw [htgt]

/-- Witness for C2: three byte-sized pushes (element size `2 ^ 0`) and the
first growth of the empty vector. -/
theorem claim_C2_witness :
    ((1 : Nat) = 2 ^ 0 ∧ minElements * 1 ≤ 2 ^ 31 ∧ 3 * 1 ≤ 2 ^ 30) ∧
    (Vec.pushN 1 orcT true (fun _ => 0) (fun i _ => i) 3 Vec.init).count
      = 3 ∧
    3 ≤ (Vec.pushN 1 orcT true (fun _ => 0) (fun i _ => i) 3 Vec.init).cap ∧
    (∃ m, (Vec.pushN 1 orcT true (fun _ => 0) (fun i _ => i) 3
      Vec.init).cap = minElements * 2 ^ m) ∧
    (Vec.init.push_back 1 orcT true (fun _ => 0) (fun _ => 5)).cap =
      roundUpBlk (growthTarget Vec.init.cap (Vec.init.count + 1) * 1)
        / 1 := by
  have h := claim_C2_pushN 0 1 3 (fun _ => 0) (fun i _ => i)
    (by norm_num) (by norm_num [minElements]) (by norm_num)
  exact ⟨⟨by norm_num, by norm_num [minElements], by norm_num⟩, h.1, h.2.1,
    h.2.2.1 (by norm_num),
    h.2.2.2 Vec.init (fun _ => 5) rfl (Or.inl rfl)⟩

/-- Counterexample to C2 as stated: with element size 3 (which does not
divide the 32 KiB block), one push grows the empty vector to capacity
`32768 / 3 = 10922`, which is not a power-of-two multiple of
`MIN_ELEMENTS = 16` (indeed not a multiple of 16 at all). -/
theorem claim_C2_counterexample :
    (1 : Nat) ≤ 1 ∧
    (Vec.pushN 3 orcT true (fun _ => 0) (fun _ _ => 0) 1 Vec.init).cap
      = 10922 ∧
    ¬ ∃ m : Nat, (Vec.pushN 3 orcT true (fun _ => 0) (fun _ _ => 0) 1
      Vec.init).cap = minElements * 2 ^ m := by
  have hc : (Vec.pushN 3 orcT true (fun _ => 0) (fun _ _ => 0) 1
      Vec.init).cap = 10922 := by decide
  refine ⟨le_rfl, hc, ?_⟩
  rintro ⟨m, hm⟩
  rw [hc] at hm
  have hdvd : (16 : Nat) ∣ 10922 :=
    ⟨2 ^ m, by rw [hm]; norm_num [minElements]⟩
  exact absurd hdvd (by decide)

lemma roundUpBlk_ge (x : Nat) (h : x + (BLKSZ - 1) < M32) :
    x ≤ roundUpBlk x := by
  unfold roundUpBlk
  rw [Nat.mod_eq_of_lt h]
  rw [hBLKSZ] at h ⊢
  omega

lemma read_elem (esz : Nat) (m : Himem) (i : Nat) (he : 0 < esz)
    (hh : m.handle = true) (hi : (i + 1) * esz ≤ m.size) :
    (m.read orcT (i * esz) esz).1 = elemBytes esz m i := by
  have hmul : (i + 1) * esz = i * esz + esz := by ring
  have hoff : i * esz < m.size := by omega
  rw [read_val m (i * esz) esz hh hoff]
  unfold elemBytes
  have hmin : min esz (m.size - i * esz) = esz := by omega
  rw [hmin]

lemma write_elem (esz : Nat) (m : Himem) (i : Nat) (src : Nat → Nat)
    (he : 0 < esz) (hh : m.handle = true) (hi : (i + 1) * esz ≤ m.size) :
    ∀ a, (m.write orcT src (i * esz) esz).2.mem a =
      (if i * esz ≤ a ∧ a < (i + 1) * esz then src (a - i * esz)
       else m.mem a) := by
  intro a
  have hmul : (i + 1) * esz = i * esz + esz := by ring
  have hoff : i * esz < m.size := by omega
  have hmin : min esz (m.size - i * esz) = esz := by omega
  rw [(write_val m src (i * esz) esz hh hoff).2 a, hmin]
  by_cases hin : i * esz ≤ a ∧ a < i * esz + esz
  · rw [if_pos hin, if_pos (by omega)]
  · rw [if_neg hin, if_neg (by omega)]

lemma elemBytes_length (esz : Nat) (m : Himem) (i : Nat) :
    (elemBytes esz m i).length = esz := by
  simp [elemBytes]

lemma staging_get (esz : Nat) (m : Himem) (i : Nat) (temp : Nat → Nat)
    (bs : List Nat) (hbs : bs = elemBytes esz m i) (j : Nat)
    (hj : j < esz) : staging bs temp j = m.mem (i * esz + j) := by
  subst hbs
  unfold staging
  rw [dif_pos (by rw [elemBytes_length]; exact hj)]
  simp [elemBytes]

/-- One iteration of the erase shift loop: element `p` takes the bytes of
element `p + 1`; everything else is untouched. -/
def eraseStepState (esz : Nat) (m : Himem) (temp : Nat → Nat) (p : Nat) :
    Himem × (Nat → Nat) :=
  ((let r := m.read orcT ((p + 1) * esz) esz
    (r.2.write orcT (staging r.1 temp) (p * esz) esz).2),
   staging (m.read orcT ((p + 1) * esz) esz).1 temp)

lemma eraseShift_step (esz : Nat) (k p : Nat) (m : Himem)
    (temp : Nat → Nat) :
    Vec.eraseShift esz orcT (k + 1) (p + 1) m temp =
      Vec.eraseShift esz orcT k (p + 2) (eraseStepState esz m temp p).1
        (eraseStepState esz m temp p).2 := rfl

lemma eraseStepState_spec (esz : Nat) (he : 0 < esz) (p : Nat) (m : Himem)
    (temp : Nat → Nat) (hh : m.handle = true)
    (hsz : (p + 1 + 1) * esz ≤ m.size) :
    (eraseStepState esz m temp p).1.size = m.size ∧
    (eraseStepState esz m temp p).1.handle = true ∧
    ∀ a, (eraseStepState esz m temp p).1.mem a =
      (if p * esz ≤ a ∧ a < (p + 1) * esz then m.mem (a + esz)
       else m.mem a) := by
  have e1 : (p + 1) * esz = p * esz + esz := by ring
  have e4 : (p + 1 + 1) * esz = p * esz + 2 * esz := by ring
  have hbytes := read_elem esz m (p + 1) he hh hsz
  obtain ⟨rm, rh, rs, _⟩ := read_fields m orcT ((p + 1) * esz) esz
  have hwh : (m.read orcT ((p + 1) * esz) esz).2.handle = true :=
    rh.trans hh
  have hws : (p + 1) * esz ≤ (m.read orcT ((p + 1) * esz) esz).2.size := by
    rw [rs]
    omega
  have hwm := write_elem esz (m.read orcT ((p + 1) * esz) esz).2 p
    (staging (m.read orcT ((p + 1) * esz) esz).1 temp) he hwh hws
  obtain ⟨w1, w2, _⟩ := write_fields (m.read orcT ((p + 1) * esz) esz).2
    orcT (staging (m.read orcT ((p + 1) * esz) esz).1 temp) (p * esz) esz
  unfold eraseStepState
  refine ⟨w2.trans rs, w1.trans hwh, ?_⟩
  intro a
  rw [hwm a]
  by_cases hin : p * esz ≤ a ∧ a < (p + 1) * esz
  · rw [if_pos hin, if_pos hin,
      staging_get esz m (p + 1) temp _ hbytes (a - p * esz) (by omega)]
    exact congrArg m.mem (by omega)
  · rw [if_neg hin, if_neg hin, rm]

lemma eraseShift_spec (esz : Nat) (he : 0 < esz) :
    ∀ (k p : Nat) (m : Himem) (temp : Nat → Nat),
      m.handle = true → (p + 1 + k) * esz ≤ m.size →
      (Vec.eraseShift esz orcT k (p + 1) m temp).1.size = m.size ∧
      (Vec.eraseShift esz orcT k (p + 1) m temp).1.handle = m.handle ∧
      (∀ a, a < p * esz →
        (Vec.eraseShift esz orcT k (p + 1) m temp).1.mem a = m.mem a) ∧
      (∀ a, (p + k) * esz ≤ a →
        (Vec.eraseShift esz orcT k (p + 1) m temp).1.mem a = m.mem a) ∧
      (∀ a, p * esz ≤ a → a < (p + k) * esz →
        (Vec.eraseShift esz orcT k (p + 1) m temp).1.mem a
          = m.mem (a + esz)) := by
  intro k
  induction k with
  | zero =>
    intro p m temp _ _
    have e0 : (p + 0) * esz = p * esz := by ring
    exact ⟨rfl, rfl, fun a _ => rfl, fun a _ => rfl,
      fun a h1 h2 => absurd h2 (by omega)⟩
  | succ n ih =>
    intro p m temp hh hsz
    have e1 : (p + 1) * esz = p * esz + esz := by ring
    have e2 : (p + 1 + n) * esz = p * esz + esz + n * esz := by ring
    have e4 : (p + 1 + 1) * esz = p * esz + 2 * esz := by ring
    have e5 : (p + 1 + (n + 1)) * esz = p * esz + 2 * esz + n * esz := by
      ring
    have e6 : (p + 1 + 1 + n) * esz = p * esz + 2 * esz + n * esz := by
      ring
    have e7 : (p + (n + 1)) * esz = p * esz + esz + n * esz := by ring
    obtain ⟨q1, q2, q3⟩ := eraseStepState_spec esz he p m temp hh
      (by omega)
    rw [eraseShift_step]
    obtain ⟨s1, s2, s3, s4, s5⟩ := ih (p + 1)
      (eraseStepState esz m temp p).1 (eraseStepState esz m temp p).2
      q2 (by rw [q1]; omega)
    refine ⟨s1.trans q1, s2.trans (q2.trans hh.symm), ?_, ?_, ?_⟩
    · intro a ha
      rw [s3 a (by omega), q3 a, if_neg (by omega)]
    · intro a ha
      rw [s4 a (by omega), q3 a, if_neg (by omega)]
    · intro a ha1 ha2
      by_cases hcase : a < (p + 1) * esz
      · rw [s3 a (by omega), q3 a, if_pos (by omega)]
      · rw [s5 a (by omega) (by omega), q3 (a + esz),
          if_neg (by omega)]

/-- C4: `erase(pos)` is a no-op when `pos >= size()`; otherwise (with all
remaps succeeding) it shifts every element at an index greater than `pos`
down by one slot, leaves elements below `pos` unchanged, and decrements
`size()` by one. -/
theorem claim_C4_erase (esz : Nat) (v : Vec) (temp0 : Nat → Nat)
    (pos : Nat) (he : 0 < esz) (hok : VecOk esz v) :
    (v.count ≤ pos → v.erase esz orcT temp0 pos = v) ∧
    (pos < v.count →
      (v.erase esz orcT temp0 pos).count = v.count - 1 ∧
      (∀ i, i < pos →
        elemBytes esz (v.erase esz orcT temp0 pos).memory i
          = elemBytes esz v.memory i) ∧
      (∀ i, pos ≤ i → i + 1 < v.count →
        elemBytes esz (v.erase esz orcT temp0 pos).memory i
          = elemBytes esz v.memory (i + 1))) := by
  obtain ⟨hvc, hvs, hvh⟩ := hok
  refine ⟨?_, ?_⟩
  · intro h
    unfold Vec.erase
    rw [if_pos h]
  · intro h
    unfold Vec.erase
    rw [if_neg (by omega)]
    have hh : v.memory.handle = true := hvh (by omega)
    have hsz : (pos + 1 + (v.count - (pos + 1))) * esz ≤ v.memory.size := by
      have heq : pos + 1 + (v.count - (pos + 1)) = v.count := by omega
      rw [heq]
      calc v.count * esz ≤ v.cap * esz := Nat.mul_le_mul_right esz hvc
        _ ≤ v.memory.size := hvs
    obtain ⟨s1, s2, s3, s4, s5⟩ := eraseShift_spec esz he
      (v.count - (pos + 1)) pos v.memory temp0 hh hsz
    refine ⟨rfl, ?_, ?_⟩
    · intro i hi
      unfold elemBytes
      apply List.map_congr_left
      intro j hj
      rw [List.mem_range] at hj
      apply s3
      have h1 : (i + 1) * esz ≤ pos * esz :=
        Nat.mul_le_mul_right esz (by omega)
      have h2 : (i + 1) * esz = i * esz + esz := by ring
      omega
    · intro i hip hic
      unfold elemBytes
      apply List.map_congr_left
      intro j hj
      rw [List.mem_range] at hj
      have hb1 : pos * esz ≤ i * esz := Nat.mul_le_mul_right esz hip
      have hb2 : (i + 1) * esz = i * esz + esz := by ring
      have hb3 : (i + 1) * esz ≤ (pos + (v.count - (pos + 1))) * esz :=
        Nat.mul_le_mul_right esz (by omega)
      rw [s5 (i * esz + j) (by omega) (by omega)]
      exact congrArg v.memory.mem (by omega)

/-- A five-element byte vector over an allocated one-block region, used by
the witnesses. -/
def testVec : Vec :=
  { memory :=
      { handle := true, range := false, mappedPtr := false,
        size := 32768, curBlock := SIZE_MAX,
        mem := fun a => if a < 5 then a + 10 else 0, live := 0,
        frees := 0 },
    count := 5, cap := 32768 }

/-- Witness for C4: erasing index 1 of the five-element test vector. -/
theorem claim_C4_witness :
    ((0 : Nat) < 1 ∧ VecOk 1 testVec ∧ 1 < testVec.count) ∧
    (testVec.erase 1 orcT (fun _ => 0) 1).count = testVec.count - 1 ∧
    elemBytes 1 (testVec.erase 1 orcT (fun _ => 0) 1).memory 0
      = elemBytes 1 testVec.memory 0 ∧
    elemBytes 1 (testVec.erase 1 orcT (fun _ => 0) 1).memory 2
      = elemBytes 1 testVec.memory 3 := by
  have h := claim_C4_erase 1 testVec (fun _ => 0) 1 (by decide) (by decide)
  exact ⟨⟨by decide, by decide, by decide⟩, (h.2 (by decide)).1,
    (h.2 (by decide)).2.1 0 (by decide),
    (h.2 (by decide)).2.2 2 (by decide) (by decide)⟩

/-- One iteration of the reallocation copy loop: element `i` of the new
region takes the bytes of element `i` of the old region. -/
def copyStepState (esz : Nat) (oldM newM : Himem) (temp : Nat → Nat)
    (i : Nat) : Himem × Himem × (Nat → Nat) :=
  (let r := oldM.read orcT (i * esz) esz
   (r.2, (newM.write orcT (staging r.1 temp) (i * esz) esz).2,
    staging r.1 temp))

lemma copyLoop_step (esz : Nat) (k i : Nat) (oldM newM : Himem)
    (temp : Nat → Nat) :
    Vec.copyLoop esz orcT (k + 1) i oldM newM temp =
      Vec.copyLoop esz orcT k (i + 1)
        (copyStepState esz oldM newM temp i).1
        (copyStepState esz oldM newM temp i).2.1
        (copyStepState esz oldM newM temp i).2.2 := rfl

lemma copyStepState_spec (esz : Nat) (he : 0 < esz) (oldM newM : Himem)
    (temp : Nat → Nat) (i : Nat) (hho : oldM.handle = true)
    (hhn : newM.handle = true) (hso : (i + 1) * esz ≤ oldM.size)
    (hsn : (i + 1) * esz ≤ newM.size) :
    (copyStepState esz oldM newM temp i).1.mem = oldM.mem ∧
    (copyStepState esz oldM newM temp i).1.handle = true ∧
    (copyStepState esz oldM newM temp i).1.size = oldM.size ∧
    (copyStepState esz oldM newM temp i).2.1.size = newM.size ∧
    (copyStepState esz oldM newM temp i).2.1.handle = true ∧
    ∀ a, (copyStepState esz oldM newM temp i).2.1.mem a =
      (if i * esz ≤ a ∧ a < (i + 1) * esz then oldM.mem a
       else newM.mem a) := by
  have hbytes := read_elem esz oldM i he hho hso
  obtain ⟨rm, rh, rs, _⟩ := read_fields oldM orcT (i * esz) esz
  have hwm := write_elem esz newM i
    (staging (oldM.read orcT (i * esz) esz).1 temp) he hhn hsn
  obtain ⟨w1, w2, _⟩ := write_fields newM orcT
    (staging (oldM.read orcT (i * esz) esz).1 temp) (i * esz) esz
  unfold copyStepState
  refine ⟨rm, rh.trans hho, rs, w2, w1.trans hhn, ?_⟩
  intro a
  rw [hwm a]
  by_cases hin : i * esz ≤ a ∧ a < (i + 1) * esz
  · rw [if_pos hin, if_pos hin,
      staging_get esz oldM i temp _ hbytes (a - i * esz) (by
        have f1 : (i + 1) * esz = i * esz + esz := by ring
        omega)]
    exact congrArg oldM.mem (by omega)
  · rw [if_neg hin, if_neg hin]

lemma copyLoop_content (esz : Nat) (he : 0 < esz) :
    ∀ (k i : Nat) (oldM newM : Himem) (temp : Nat → Nat),
      oldM.handle = true → newM.handle = true →
      (i + k) * esz ≤ oldM.size → (i + k) * esz ≤ newM.size →
      (∀ a, a < i * esz →
        (Vec.copyLoop esz orcT k i oldM newM temp).2.1.mem a
          = newM.mem a) ∧
      (∀ a, (i + k) * esz ≤ a →
        (Vec.copyLoop esz orcT k i oldM newM temp).2.1.mem a
          = newM.mem a) ∧
      (∀ a, i * esz ≤ a → a < (i + k) * esz →
        (Vec.copyLoop esz orcT k i oldM newM temp).2.1.mem a
          = oldM.mem a) := by
  intro k
  induction k with
  | zero =>
    intro i oldM newM temp _ _ _ _
    have e0 : (i + 0) * esz = i * esz := by ring
    exact ⟨fun a _ => rfl, fun a _ => rfl,
      fun a h1 h2 => absurd h2 (by omega)⟩
  | succ n ih =>
    intro i oldM newM temp hho hhn hso hsn
    have f1 : (i + 1) * esz = i * esz + esz := by ring
    have f2 : (i + (n + 1)) * esz = i * esz + esz + n * esz := by ring
    have f3 : (i + 1 + n) * esz = i * esz + esz + n * esz := by ring
    obtain ⟨q1, q2, q3, q4, q5, q6⟩ := copyStepState_spec esz he oldM newM
      temp i hho hhn (by omega) (by omega)
    rw [copyLoop_step]
    obtain ⟨s1, s2, s3⟩ := ih (i + 1)
      (copyStepState esz oldM newM temp i).1
      (copyStepState esz oldM newM temp i).2.1
      (copyStepState esz oldM newM temp i).2.2
      q2 q5 (by rw [q3]; omega) (by rw [q4]; omega)
    refine ⟨?_, ?_, ?_⟩
    · intro a ha
      rw [s1 a (by omega), q6 a, if_neg (by omega)]
    · intro a ha
      rw [s2 a (by omega), q6 a, if_neg (by omega)]
    · intro a ha1 ha2
      by_cases hcase : a < (i + 1) * esz
      · rw [s1 a (by omega), q6 a, if_pos (by omega)]
      · rw [s3 a (by omega) (by omega), q1]

lemma reallocate_success_memory (esz : Nat) (v : Vec) (temp0 : Nat → Nat)
    (newCapacity : Nat) (hgt : v.cap < newCapacity) :
    (v.reallocate esz orcT true temp0 newCapacity).2.memory =
      (Vec.copyLoop esz orcT v.count 0 v.memory
        { Himem.init with
          size := roundUpBlk (max newCapacity minElements * esz),
          handle := true } temp0).2.1 := by
  unfold Vec.reallocate
  rw [if_neg (by omega)]
  simp [init_alloc_success, calculateSizeBytes]

lemma reallocate_content (esz : Nat) (he : 0 < esz) (v : Vec)
    (temp0 : Nat → Nat) (newCapacity : Nat) (hgt : v.cap < newCapacity)
    (hcount : v.count * esz ≤ v.memory.size)
    (hh : 0 < v.count → v.memory.handle = true)
    (hnew : v.count * esz ≤ roundUpBlk (max newCapacity minElements * esz)) :
    ∀ a, a < v.count * esz →
      (v.reallocate esz orcT true temp0 newCapacity).2.memory.mem a
        = v.memory.mem a := by
  intro a ha
  by_cases hc0 : v.count = 0
  · exact absurd ha (by rw [hc0]; simp)
  · rw [reallocate_success_memory esz v temp0 newCapacity hgt]
    have e0 : (0 + v.count) * esz = v.count * esz := by ring
    obtain ⟨_, _, s3⟩ := copyLoop_content esz he v.count 0 v.memory
      { Himem.init with
        size := roundUpBlk (max newCapacity minElements * esz),
        handle := true } temp0 (hh (by omega)) rfl (by omega) (by
        show (0 + v.count) * esz ≤ roundUpBlk (max newCapacity minElements
          * esz)
        omega)
    exact s3 a (by omega) (by omega)

/-- One iteration of the insert shift loop: element `q + 1` takes the
bytes of element `q`; everything else is untouched. -/
def insertStepState (esz : Nat) (m : Himem) (temp : Nat → Nat) (i : Nat) :
    Himem × (Nat → Nat) :=
  ((let r := m.read orcT ((i - 1) * esz) esz
    (r.2.write orcT (staging r.1 temp) (i * esz) esz).2),
   staging (m.read orcT ((i - 1) * esz) esz).1 temp)

lemma insertShift_step (esz : Nat) (n q : Nat) (m : Himem)
    (temp : Nat → Nat) :
    Vec.insertShift esz orcT (n + 1) (q + 1) m temp =
      Vec.insertShift esz orcT n q
        (insertStepState esz m temp (q + 1)).1
        (insertStepState esz m temp (q + 1)).2 := rfl

lemma insertStepState_spec (esz : Nat) (he : 0 < esz) (q : Nat)
    (m : Himem) (temp : Nat → Nat) (hh : m.handle = true)
    (hsz : (q + 1 + 1) * esz ≤ m.size) :
    (insertStepState esz m temp (q + 1)).1.size = m.size ∧
    (insertStepState esz m temp (q + 1)).1.handle = true ∧
    ∀ a, (insertStepState esz m temp (q + 1)).1.mem a =
      (if (q + 1) * esz ≤ a ∧ a < (q + 1 + 1) * esz then m.mem (a - esz)
       else m.mem a) := by
  have g1 : (q + 1) * esz = q * esz + esz := by ring
  have g2 : (q + 1 + 1) * esz = q * esz + 2 * esz := by ring
  have hqr : (q + 1) * esz ≤ m.size := by omega
  have hbytes := read_elem esz m q he hh (by omega)
  obtain ⟨rm, rh, rs, _⟩ := read_fields m orcT (q * esz) esz
  unfold insertStepState
  simp only [Nat.add_sub_cancel]
  have hwh : (m.read orcT (q * esz) esz).2.handle = true := rh.trans hh
  have hws : (q + 1 + 1) * esz ≤ (m.read orcT (q * esz) esz).2.size := by
    rw [rs]
    exact hsz
  have hwm := write_elem esz (m.read orcT (q * esz) esz).2 (q + 1)
    (staging (m.read orcT (q * esz) esz).1 temp) he hwh hws
  obtain ⟨w1, w2, _⟩ := write_fields (m.read orcT (q * esz) esz).2 orcT
    (staging (m.read orcT (q * esz) esz).1 temp) ((q + 1) * esz) esz
  refine ⟨w2.trans rs, w1.trans hwh, ?_⟩
  intro a
  rw [hwm a]
  by_cases hin : (q + 1) * esz ≤ a ∧ a < (q + 1 + 1) * esz
  · rw [if_pos hin, if_pos hin,
      staging_get esz m q temp _ hbytes (a - (q + 1) * esz) (by omega)]
    exact congrArg m.mem (by omega)
  · rw [if_neg hin, if_neg hin, rm]

lemma insertShift_spec (esz : Nat) (he : 0 < esz) :
    ∀ (k i : Nat) (m : Himem) (temp : Nat → Nat),
      m.handle = true → (i + 1) * esz ≤ m.size → k ≤ i →
      (Vec.insertShift esz orcT k i m temp).1.size = m.size ∧
      (Vec.insertShift esz orcT k i m temp).1.handle = m.handle ∧
      (∀ a, a < (i - k + 1) * esz →
        (Vec.insertShift esz orcT k i m temp).1.mem a = m.mem a) ∧
      (∀ a, (i + 1) * esz ≤ a →
        (Vec.insertShift esz orcT k i m temp).1.mem a = m.mem a) ∧
      (∀ a, (i - k + 1) * esz ≤ a → a < (i + 1) * esz →
        (Vec.insertShift esz orcT k i m temp).1.mem a
          = m.mem (a - esz)) := by
  intro k
  induction k with
  | zero =>
    intro i m temp _ _ _
    have e0 : (i - 0 + 1) * esz = (i + 1) * esz := by
      have : i - 0 + 1 = i + 1 := by omega
      rw [this]
    exact ⟨rfl, rfl, fun a _ => rfl, fun a _ => rfl,
      fun a h1 h2 => absurd h2 (by omega)⟩
  | succ n ih =>
    intro i m temp hh hsz hk
    obtain ⟨q, rfl⟩ : ∃ q, i = q + 1 := ⟨i - 1, by omega⟩
    have g1 : (q + 1) * esz = q * esz + esz := by ring
    have g2 : (q + 1 + 1) * esz = q * esz + 2 * esz := by ring
    have g3 : (q - n + 1) * esz ≤ (q + 1) * esz :=
      Nat.mul_le_mul_right esz (by omega)
    have g4 : (q + 1 - (n + 1) + 1) * esz = (q - n + 1) * esz := by
      have : q + 1 - (n + 1) + 1 = q - n + 1 := by omega
      rw [this]
    obtain ⟨q1, q2, q3⟩ := insertStepState_spec esz he q m temp hh hsz
    rw [insertShift_step]
    obtain ⟨s1, s2, s3, s4, s5⟩ := ih q
      (insertStepState esz m temp (q + 1)).1
      (insertStepState esz m temp (q + 1)).2
      q2 (by rw [q1]; omega) (by omega)
    refine ⟨s1.trans q1, s2.trans (q2.trans hh.symm), ?_, ?_, ?_⟩
    · intro a ha
      rw [g4] at ha
      rw [s3 a (by omega), q3 a, if_neg (by omega)]
    · intro a ha
      rw [s4 a (by omega), q3 a, if_neg (by omega)]
    · intro a ha1 ha2
      rw [g4] at ha1
      by_cases hcase : (q + 1) * esz ≤ a
      · rw [s4 a (by omega), q3 a, if_pos (by omega)]
      · rw [s5 a (by omega) (by omega), q3 (a - esz),
          if_neg (by omega)]

lemma insert_core (esz : Nat) (he : 0 < esz) (M : Himem)
    (count pos : Nat) (value temp0 : Nat → Nat)
    (hh : M.handle = true) (hsz : (count + 1) * esz ≤ M.size)
    (hpos : pos ≤ count) :
    elemBytes esz ((Vec.insertShift esz orcT (count - pos) count M
        temp0).1.write orcT value (pos * esz) esz).2 pos
      = (List.range esz).map value ∧
    (∀ i, i < pos →
      elemBytes esz ((Vec.insertShift esz orcT (count - pos) count M
          temp0).1.write orcT value (pos * esz) esz).2 i
        = elemBytes esz M i) ∧
    (∀ i, pos ≤ i → i < count →
      elemBytes esz ((Vec.insertShift esz orcT (count - pos) count M
          temp0).1.write orcT value (pos * esz) esz).2 (i + 1)
        = elemBytes esz M i) := by
  obtain ⟨s1, s2, s3, s4, s5⟩ := insertShift_spec esz he (count - pos)
    count M temp0 hh hsz (by omega)
  have g4 : (count - (count - pos) + 1) * esz = (pos + 1) * esz := by
    have : count - (count - pos) + 1 = pos + 1 := by omega
    rw [this]
  have hp1 : (pos + 1) * esz = pos * esz + esz := by ring
  have hwh : (Vec.insertShift esz orcT (count - pos) count M
      temp0).1.handle = true := s2.trans hh
  have hwsz : (pos + 1) * esz ≤ (Vec.insertShift esz orcT (count - pos)
      count M temp0).1.size := by
    rw [s1]
    calc (pos + 1) * esz ≤ (count + 1) * esz :=
          Nat.mul_le_mul_right esz (by omega)
      _ ≤ M.size := hsz
  have hwm := write_elem esz (Vec.insertShift esz orcT (count - pos) count
    M temp0).1 pos value he hwh hwsz
  refine ⟨?_, ?_, ?_⟩
  · unfold elemBytes
    apply List.map_congr_left
    intro j hj
    rw [List.mem_range] at hj
    rw [hwm (pos * esz + j), if_pos (by omega)]
    exact congrArg value (by omega)
  · intro i hi
    unfold elemBytes
    apply List.map_congr_left
    intro j hj
    rw [List.mem_range] at hj
    have m1 : (i + 1) * esz ≤ pos * esz :=
      Nat.mul_le_mul_right esz (by omega)
    have m2 : (i + 1) * esz = i * esz + esz := by ring
    rw [hwm (i * esz + j), if_neg (by omega), s3 (i * esz + j) (by omega)]
  · intro i hpi hic
    unfold elemBytes
    apply List.map_congr_left
    intro j hj
    rw [List.mem_range] at hj
    have m2 : (i + 1) * esz = i * esz + esz := by ring
    have m3 : (i + 2) * esz = i * esz + 2 * esz := by ring
    have m4 : (pos + 1) * esz ≤ (i + 1) * esz :=
      Nat.mul_le_mul_right esz (by omega)
    have m5 : (i + 2) * esz ≤ (count + 1) * esz :=
      Nat.mul_le_mul_right esz (by omega)
    rw [hwm ((i + 1) * esz + j), if_neg (by omega),
      s5 ((i + 1) * esz + j) (by omega) (by omega)]
    exact congrArg M.mem (by omega)

/-- C3: `insert(pos, v)` is a no-op when `pos > size()`; otherwise (with
any needed growth and all remaps succeeding, and within 32-bit `size_t`
bounds) the element at `pos` reads back as the inserted bytes, every
element previously at an index at or above `pos` moves up by one, elements
below `pos` are unchanged, and `size()` is incremented. -/
theorem claim_C3_insert (esz : Nat) (v : Vec) (temp0 value : Nat → Nat)
    (pos : Nat) (he : 0 < esz) (hok : VecOk esz v)
    (hwrap : (2 * v.cap + minElements) * esz + BLKSZ ≤ M32) :
    (v.count < pos → v.insert esz orcT true temp0 pos value = v) ∧
    (pos ≤ v.count →
      (v.insert esz orcT true temp0 pos value).count = v.count + 1 ∧
      elemBytes esz (v.insert esz orcT true temp0 pos value).memory pos
        = (List.range esz).map value ∧
      (∀ i, i < pos →
        elemBytes esz (v.insert esz orcT true temp0 pos value).memory i
          = elemBytes esz v.memory i) ∧
      (∀ i, pos ≤ i → i < v.count →
        elemBytes esz (v.insert esz orcT true temp0 pos value).memory
          (i + 1) = elemBytes esz v.memory i)) := by
  obtain ⟨hvc, hvs, hvh⟩ := hok
  have hm16 : minElements = 16 := by norm_num [minElements]
  refine ⟨?_, ?_⟩
  · intro h
    unfold Vec.insert
    rw [if_pos h]
  · intro hpos
    unfold Vec.insert
    rw [if_neg (by omega)]
    by_cases hgrow : v.cap ≤ v.count
    · rw [if_pos hgrow]
      have hcc : v.count = v.cap := by omega
      set t := if v.cap = 0 then minElements else v.cap * 2 with ht
      have htgt : v.cap < t := by
        rw [ht]
        exact growth_target_gt v.cap
      have htc : v.count + 1 ≤ max t minElements := by
        rw [ht]
        by_cases h0 : v.cap = 0
        · rw [if_pos h0]
          have := Nat.le_max_left minElements minElements
          omega
        · rw [if_neg h0]
          have := Nat.le_max_left (v.cap * 2) minElements
          omega
      have htle : max t minElements ≤ 2 * v.cap + minElements := by
        rw [ht]
        by_cases h0 : v.cap = 0
        · rw [if_pos h0]
          have := Nat.max_le.mpr (⟨le_rfl, le_rfl⟩ :
            minElements ≤ minElements ∧ minElements ≤ minElements)
          omega
        · rw [if_neg h0]
          have := Nat.max_le.mpr (⟨by omega, by omega⟩ :
            v.cap * 2 ≤ 2 * v.cap + minElements ∧
            minElements ≤ 2 * v.cap + minElements)
          omega
      have hr := reallocate_cap esz v orcT temp0 t htgt
      rw [if_pos hr.1]
      have hwrap2 : max t minElements * esz + (BLKSZ - 1) < M32 := by
        have h1 := Nat.mul_le_mul_right esz htle
        have h2 : 0 < BLKSZ := by rw [hBLKSZ]; omega
        omega
      have hge : max t minElements * esz ≤
          roundUpBlk (max t minElements * esz) :=
        roundUpBlk_ge _ hwrap2
      have hszM : (v.count + 1) * esz ≤
          (v.reallocate esz orcT true temp0 t).2.memory.size := by
        rw [hr.2.2.2.1]
        calc (v.count + 1) * esz ≤ max t minElements * esz :=
              Nat.mul_le_mul_right esz htc
          _ ≤ roundUpBlk (max t minElements * esz) := hge
      have hagree := reallocate_content esz he v temp0 t htgt
        (le_trans (Nat.mul_le_mul_right esz hvc) hvs)
        (fun h => hvh (by omega))
        (calc v.count * esz ≤ max t minElements * esz :=
              Nat.mul_le_mul_right esz (by omega)
          _ ≤ roundUpBlk (max t minElements * esz) := hge)
      obtain ⟨c1, c2, c3⟩ := insert_core esz he
        (v.reallocate esz orcT true temp0 t).2.memory
        (v.reallocate esz orcT true temp0 t).2.count pos value temp0
        hr.2.2.2.2 (by rw [hr.2.1]; exact hszM) (by rw [hr.2.1]; omega)
      refine ⟨?_, ?_, ?_, ?_⟩
      · show (v.reallocate esz orcT true temp0 t).2.count + 1
          = v.count + 1
        rw [hr.2.1]
      · exact c1
      · intro i hi
        refine (c2 i hi).trans ?_
        unfold elemBytes
        apply List.map_congr_left
        intro j hj
        rw [List.mem_range] at hj
        have m2 : (i + 1) * esz = i * esz + esz := by ring
        have m1 : (i + 1) * esz ≤ v.count * esz :=
          Nat.mul_le_mul_right esz (by omega)
        exact hagree (i * esz + j) (by omega)
      · intro i hpi hic
        refine (c3 i hpi (by rw [hr.2.1]; exact hic)).trans ?_
        unfold elemBytes
        apply List.map_congr_left
        intro j hj
        rw [List.mem_range] at hj
        have m2 : (i + 1) * esz = i * esz + esz := by ring
        have m1 : (i + 1) * esz ≤ v.count * esz :=
          Nat.mul_le_mul_right esz (by omega)
        exact hagree (i * esz + j) (by omega)
    · rw [if_neg hgrow]
      have hhM : v.memory.handle = true := hvh (by omega)
      have hszM : (v.count + 1) * esz ≤ v.memory.size :=
        calc (v.count + 1) * esz ≤ v.cap * esz :=
              Nat.mul_le_mul_right esz (by omega)
          _ ≤ v.memory.size := hvs
      obtain ⟨c1, c2, c3⟩ := insert_core esz he v.memory v.count pos value
        temp0 hhM hszM hpos
      exact ⟨rfl, c1, fun i hi => c2 i hi, fun i h1 h2 => c3 i h1 h2⟩

/-- Witness for C3: inserting value 99 at index 1 of the five-element test
vector (no growth), checking the written element, a preserved element and
a shifted element. -/
theorem claim_C3_witness :
    ((0 : Nat) < 1 ∧ VecOk 1 testVec ∧
      (2 * testVec.cap + minElements) * 1 + BLKSZ ≤ M32 ∧
      1 ≤ testVec.count) ∧
    (testVec.insert 1 orcT true (fun _ => 0) 1 (fun _ => 99)).count
      = testVec.count + 1 ∧
    elemBytes 1 (testVec.insert 1 orcT true (fun _ => 0) 1
      (fun _ => 99)).memory 1 = (List.range 1).map (fun _ => 99) ∧
    elemBytes 1 (testVec.insert 1 orcT true (fun _ => 0) 1
      (fun _ => 99)).memory 0 = elemBytes 1 testVec.memory 0 ∧
    elemBytes 1 (testVec.insert 1 orcT true (fun _ => 0) 1
      (fun _ => 99)).memory 3 = elemBytes 1 testVec.memory 2 := by
  have h := claim_C3_insert 1 testVec (fun _ => 0) (fun _ => 99) 1
    (by decide) (by decide) (by decide)
  exact ⟨⟨by decide, by decide, by decide, by decide⟩,
    (h.2 (by decide)).1, (h.2 (by decide)).2.1,
    (h.2 (by decide)).2.2.1 0 (by decide),
    (h.2 (by decide)).2.2.2 2 (by decide) (by decide)⟩

/-- The five-element test vector with its count reset to 0: an empty
vector whose allocated region still holds stale bytes. -/
def emptyVec : Vec := { testVec with count := 0 }

/-- C8 (behavior at the failing input): on an empty vector, `back()`
computes byte offset `(0 - 1) * sizeof(T)`, which wraps to `SIZE_MAX` in
32-bit `size_t`; the window-manager read transfers 0 bytes, and `back()`
silently returns the static staging buffer's previous content (here 42)
with no signal of any kind.  `front()` on the same empty vector silently
returns the stale byte still stored at offset 0 of the region (here 10).
Neither call surfaces the precondition violation. -/
theorem claim_C8_back_empty_silent :
    emptyVec.count = 0 ∧
    (emptyVec.count + M32 - 1) % M32 * 1 % M32 = 4294967295 ∧
    (emptyVec.memory.read orcT
      ((emptyVec.count + M32 - 1) % M32 * 1 % M32) 1).1.length = 0 ∧
    (∀ j, (emptyVec.back 1 orcT (fun _ => 42)).1 j = 42) ∧
    (emptyVec.front 1 orcT (fun _ => 42)).1 0 = 10 :=
  ⟨rfl, by decide, by decide, fun j => rfl, by decide⟩

end Esp32Psram
